import Mathlib

/-!
Fill tool (`src/tool_fill.cpp`): raster trace and path reconstruction.

A shallow embedding of `FillTool::clickPress` (the rightward scan),
`FillTool::traceBoundary` (wall follower and even-odd containment test) and
`FillTool::fillBoundary` (section builder, section clean-up loop, path
reconstruction and scene update), followed by theorems about them.

Conventions.
* Pixel coordinates are C++ `int`s, embedded as `Int`.  A `QImage` holds
  `width * height * 4` bytes in an `int`-indexed buffer, so every coordinate
  and the product `width * height` stay far below `2^31`; no operation of the
  embedded code can overflow.
* Arc lengths (`clen`) and scene distances are C++ `float`s, embedded as the
  rationals they stand for.  The sum `end_clen += epsilon` of line 363 is
  rounded to single precision (`roundFloat`), because the rounding decides
  whether the sum differs from `end_clen` at all; the differences and the
  product in the conditions of the builder and of the clean-up loop are only
  compared with other values and are taken exactly.  Infinities and NaN are
  not modelled.
* Loops are embedded as recursive functions.  The tracing loop is bounded by
  the source itself (`max_length`); the scan loops carry an explicit fuel
  argument and are shown to finish within it; the clean-up loop is defined by
  well-founded recursion on `2 * end - s`.
-/

namespace FillTool

/-! ## Pixels and the occupancy buffer -/

/-- Integer pixel coordinate (`QPoint`). -/
structure QPoint where
  x : Int
  y : Int
deriving DecidableEq, Repr

instance : Add QPoint := ⟨fun a b => ⟨a.x + b.x, a.y + b.y⟩⟩
instance : Sub QPoint := ⟨fun a b => ⟨a.x - b.x, a.y - b.y⟩⟩
instance : Neg QPoint := ⟨fun a => ⟨-a.x, -a.y⟩⟩

/-- The rasterized map (`QImage`): its size and, for every pixel, the alpha
channel of the stored colour (`qAlpha (image.pixel (x, y))`). -/
structure QImage where
  width : Nat
  height : Nat
  alpha : Int → Int → Nat

/-- Coordinates that address a pixel of the image (`QImage::valid`). -/
def QImage.valid (img : QImage) (p : QPoint) : Bool :=
  decide (0 ≤ p.x) && decide (p.x < img.width) && decide (0 ≤ p.y) && decide (p.y < img.height)

/-- The value of `qAlpha(image.pixel(p))`.  For coordinates outside the image
Qt's `QImage::pixel` warns and returns the constant `12345`, whose alpha
channel is `0`. -/
def pixelAlpha (img : QImage) (p : QPoint) : Nat :=
  if img.valid p then img.alpha p.x p.y else 0

/-- The test `qAlpha(image.pixel(p)) > 0`: the pixel is obstructed. -/
def occupied (img : QImage) (p : QPoint) : Bool := decide (pixelAlpha img p > 0)

/-- The value of `image.rect().contains(p, true)`.  `image.rect()` is
`QRect(0, 0, width, height)`, whose left/top edge is `0` and whose right/bottom
edge is `width - 1` / `height - 1`.  With `proper = true` Qt's
`QRect::contains` accepts a point only when it is entirely inside the
rectangle, not on its edge: it returns false when `p.x <= left`,
`p.x >= right`, `p.y <= top` or `p.y >= bottom`. -/
def rectContains (img : QImage) (p : QPoint) : Bool :=
  decide (0 < p.x) && decide (p.x < (img.width : Int) - 1) &&
    decide (0 < p.y) && decide (p.y < (img.height : Int) - 1)

/-! ## `FillTool::traceBoundary` -/

/-- The vector `QPoint(fwd_vector.y(), -fwd_vector.x())`. -/
def rightVector (fwd : QPoint) : QPoint := ⟨fwd.y, -fwd.x⟩

/-- The three-way branch in the body of the tracing loop (lines 247-261): the
new `cur_pixel` and `fwd_vector`. -/
def traceMove (img : QImage) (cur fwd : QPoint) : QPoint × QPoint :=
  if occupied img (cur + fwd + rightVector fwd) then
    (cur + fwd + rightVector fwd, -(rightVector fwd))
  else if occupied img (cur + rightVector fwd) then
    (cur + rightVector fwd, fwd)
  else
    (cur, rightVector fwd)

/-- How the tracing loop was left: by its `break` (the state came back to the
initial one), by one of the two `return false` statements, or because `i`
reached `max_length`. -/
inductive LoopExit where
  | closed
  | outOfRect
  | exhausted
deriving DecidableEq, Repr

/-- The conditional `push_back` at the end of the loop body (lines 269-270). -/
def pushIfNew (out : List QPoint) (cur : QPoint) : List QPoint :=
  if out.getLast? ≠ some cur then out ++ [cur] else out

/-- The tracing loop (lines 239-271).  The first argument counts the iterations
still allowed (`max_length - i`). -/
def traceLoop (img : QImage) (start test : QPoint) :
    Nat → QPoint → QPoint → List QPoint → LoopExit × List QPoint
  | 0, _, _, out => (LoopExit.exhausted, out)
  | n + 1, cur, fwd, out =>
    if !rectContains img (cur + fwd + rightVector fwd) then (LoopExit.outOfRect, out)
    else if !rectContains img (cur + rightVector fwd) then (LoopExit.outOfRect, out)
    else
      let m := traceMove img cur fwd
      if m.1 = test ∧ m.1 + m.2 = start then (LoopExit.closed, out)
      else traceLoop img start test n m.1 m.2 (pushIfNew out m.1)

/-- The condition of the `if` in the containment loop (lines 280-282) for
`out_boundary[i] = vi`, `out_boundary[j] = vj`.  `/` on C++ `int`s truncates
toward zero (`Int.tdiv`). -/
def crossing (p vi vj : QPoint) : Bool :=
  (decide (vi.y > p.y) != decide (vj.y > p.y)) &&
    decide (p.x < Int.tdiv ((vj.x - vi.x) * (p.y - vi.y)) (vj.y - vi.y) + vi.x)

/-- The containment loop from index `i` on: `vj` is `out_boundary[j]`, the list
holds `out_boundary[i..]`, `inside` is the flag so far. -/
def insideFrom (p : QPoint) : QPoint → List QPoint → Bool → Bool
  | _, [], inside => inside
  | vj, vi :: rest, inside => insideFrom p vi rest (if crossing p vi vj then !inside else inside)

/-- The containment loop (lines 275-284): `j` starts at `size - 1`. -/
def insideTest (p : QPoint) (out : List QPoint) : Bool :=
  match out.getLast? with
  | none => false
  | some last => insideFrom p last out false

/-- The outcome of the tracing loop of `traceBoundary`. -/
def traceRun (img : QImage) (start test : QPoint) : LoopExit × List QPoint :=
  traceLoop img start test (img.width * img.height) test (start - test) [test]

/-- `FillTool::traceBoundary`: the returned flag and the contents of
`out_boundary` on return. -/
def traceBoundary (img : QImage) (start test : QPoint) : Bool × List QPoint :=
  match traceRun img start test with
  | (LoopExit.outOfRect, out) => (false, out)
  | (_, out) => (insideTest start out, out)

/-! ## The scan of `FillTool::clickPress` -/

/-- What `clickPress` does once the map is rasterized: one of the two
warnings, or a call of `fillBoundary` with the traced contour. -/
inductive ClickResult where
  | notBounded
  | notFree
  | fill (boundary : List QPoint)
deriving DecidableEq, Repr

/-- The inner `while` loop (lines 143-145) on row `y`, from column `x`. -/
def skipRun (img : QImage) (y : Int) : Nat → Int → Option Int
  | 0, _ => none
  | n + 1, x =>
    if x < (img.width : Int) - 1 ∧ occupied img ⟨x, y⟩ then skipRun img y n (x + 1)
    else some x

/-- The `for` loop of `clickPress` (lines 128-160) from `start_pixel`.  The
result is `none` when the fuel runs out. -/
def scanLoop (img : QImage) : Nat → QPoint → Option ClickResult
  | 0, _ => none
  | n + 1, start =>
    if start.x < (img.width : Int) - 1 then
      let test : QPoint := start + ⟨1, 0⟩
      if !occupied img test then scanLoop img n (start + ⟨1, 0⟩)
      else
        let r := traceBoundary img start test
        if !r.1 then
          match skipRun img start.y (n + 1) (start.x + 1) with
          | none => none
          | some x => scanLoop img n (⟨x, start.y⟩ - ⟨1, 0⟩ + ⟨1, 0⟩)
        else some (ClickResult.fill r.2)
    else some ClickResult.notBounded

/-- `FillTool::clickPress` from the computation of `clicked_pixel` on
(lines 103-167). -/
def clickPress (img : QImage) (clicked : QPoint) : Option ClickResult :=
  if !rectContains img clicked then some ClickResult.notBounded
  else if occupied img clicked then some ClickResult.notFree
  else scanLoop img (img.width + 1) clicked

/-! ## `FillTool::fillBoundary`: the section builder -/

/-- Modelled from the spec: `PathSection`, whose declaration (`tool_fill.h`) is
not among the sources.  A section is `{ object reference, start arc-length,
end arc-length }`; the object is identified by a number. -/
structure PathSection where
  object : Nat
  start_clen : ℚ
  end_clen : ℚ
deriving DecidableEq, Repr, Inhabited

/-- What the section builder reads from its collaborators, as functions of
the contour pixels.
* `snap p`: the result of `snapToObject` at the scene position of pixel `p`:
  `none` when `snap_info.type != ObjectPaths`, else the snapped object and
  `snap_info.path_coord.clen`;
* `dist p q`: the scene distance `map_pos.lengthTo(...)` between the scene
  positions of the pixels `p` and `q`;
* `pixel_length`: the scene length of one pixel step (line 327). -/
structure SnapEnv where
  snap : QPoint → Option (Nat × ℚ)
  dist : QPoint → QPoint → ℚ
  pixel_length : ℚ

/-- The element `boundary[b - 1]` for `size_t b`: at `b = 0` the index wraps
around to the largest `size_t` and addresses no element. -/
def prevPixel (boundary : List QPoint) (b : Nat) : Option QPoint :=
  if b = 0 then none else boundary[b - 1]?

/-- The section opened by lines 314-318. -/
def newSection (obj : Nat) (clen : ℚ) : PathSection := ⟨obj, clen, clen⟩

/-- The body of the builder loop (lines 296-323) for `boundary[b] = pix`.  The
operands of `||` are evaluated left to right and only as far as needed; the
result is `none` when `boundary[b - 1]` is evaluated and addresses no
element. -/
def builderStep (env : SnapEnv) (boundary : List QPoint) (b : Nat) (pix : QPoint)
    (sections : List PathSection) : Option (List PathSection) :=
  match env.snap pix with
  | none => some sections
  | some (obj, clen) =>
    match sections.getLast? with
    | none => some (sections ++ [newSection obj clen])
    | some back =>
      if back.object ≠ obj then some (sections ++ [newSection obj clen])
      else if (back.end_clen - back.start_clen) * (clen - back.end_clen) < 0 then
        some (sections ++ [newSection obj clen])
      else
        match prevPixel boundary b with
        | none => none
        | some q =>
          if abs (clen - back.end_clen) > 5 * env.dist pix q then
            some (sections ++ [newSection obj clen])
          else some (sections.dropLast ++ [{ back with end_clen := clen }])

/-- The builder loop (lines 294-324) from index `b` on; the list holds
`boundary[b..]`. -/
def builderLoop (env : SnapEnv) (boundary : List QPoint) :
    Nat → List QPoint → List PathSection → Option (List PathSection)
  | _, [], sections => some sections
  | b, pix :: rest, sections =>
    match builderStep env boundary b pix sections with
    | none => none
    | some sections1 => builderLoop env boundary (b + 1) rest sections1

/-- The section builder (lines 290-324). -/
def buildSections (env : SnapEnv) (boundary : List QPoint) : Option (List PathSection) :=
  builderLoop env boundary 0 boundary []

/-! ## `FillTool::fillBoundary`: the section clean-up loop -/

/-- Search for the binary exponent of a `float` of scaled magnitude
`s = |x| * 2^149`: the least `k`, counted from the exponent of the subnormal
numbers, with `s < 2^(k + 24)`.  The search stops at the largest exponent of
the format. -/
def floatExponentFrom : Nat → ℚ → Nat → Nat
  | 0, _, k => k
  | n + 1, s, k => if ((2 ^ (k + 24) : Nat) : ℚ) ≤ s then floatExponentFrom n s (k + 1) else k

/-- The exponent of the `float` grid at `x`, counted from `2^-149`. -/
def floatExponent (x : ℚ) : Nat := floatExponentFrom 253 (|x| * ((2 ^ 149 : Nat) : ℚ)) 0

/-- The spacing of the `float` grid at `x`: `2^-149` below `2^-125`, and
`2^(e - 23)` for `2^e <= |x| < 2^(e + 1)`. -/
def quantum (x : ℚ) : ℚ := ((2 ^ floatExponent x : Nat) : ℚ) / ((2 ^ 149 : Nat) : ℚ)

/-- Rounding to the nearest integer, ties to the even one. -/
def roundEven (z : ℚ) : Int :=
  if z - ⌊z⌋ < 1 / 2 then ⌊z⌋
  else if 1 / 2 < z - ⌊z⌋ then ⌊z⌋ + 1
  else if ⌊z⌋ % 2 = 0 then ⌊z⌋ else ⌊z⌋ + 1

/-- The `float` that stands for the real number `x`: IEEE 754 single precision
(24 bits of significand, subnormal numbers), rounding to nearest, ties to
even. -/
def roundFloat (x : ℚ) : ℚ := (roundEven (x / quantum x) : ℚ) * quantum x

/-- The constant `epsilon` of line 361: the `float` that the literal `1e-4f`
stands for, `13743895 * 2^-37`. -/
def epsilon : ℚ := 13743895 / 137438953472

/-- The condition of the `if` at lines 336-338. -/
def mergeCondition (pixel_length : ℚ) (sec prev : PathSection) : Bool :=
  decide (sec.object = prev.object) &&
    decide (abs (sec.start_clen - prev.end_clen) < 2 * pixel_length) &&
    decide ((sec.end_clen - sec.start_clen) * (prev.end_clen - prev.start_clen) < 0)

/-- The condition of the inner `if` at line 340. -/
def shrinkPrev (sec prev : PathSection) : Bool :=
  decide (sec.end_clen > sec.start_clen) == decide (sec.end_clen > prev.end_clen)

/-- Lines 362-363 applied to one section; `+=` on `float`s stores the rounded
sum. -/
def widen (sec : PathSection) : PathSection :=
  if sec.end_clen = sec.start_clen then
    { sec with end_clen := roundFloat (sec.end_clen + epsilon) }
  else sec

/-- Lines 362-363 applied through the reference `section`, which addresses
slot `s` of the vector.  After an `erase` that removed the last element the
slot lies behind the end of the vector and the write does not change the
vector's contents. -/
def widenAt (sections : List PathSection) (s : Nat) : List PathSection :=
  match sections[s]? with
  | none => sections
  | some sec => sections.set s (widen sec)

/-- The body of the clean-up loop at index `s` (lines 330-363): the vector
afterwards, and whether a pair was merged (so that `--end; --s` ran). -/
def cleanBody (pixel_length : ℚ) (sections : List PathSection) (s : Nat) :
    List PathSection × Bool :=
  let sec := sections.getD s default
  let prev := sections.getD (s - 1) default
  if 0 < s ∧ mergeCondition pixel_length sec prev then
    if shrinkPrev sec prev then
      (widenAt ((sections.set (s - 1) { prev with end_clen := sec.end_clen }).eraseIdx s) s, true)
    else
      (widenAt ((sections.set s { sec with start_clen := prev.start_clen }).eraseIdx (s - 1)) s, true)
  else (widenAt sections s, false)

/-- The clean-up loop (lines 328-364) from the state `s`, `end`. -/
def cleanLoop (pixel_length : ℚ) (sections : List PathSection) (s end_ : Nat) :
    List PathSection :=
  if h : s < end_ then
    let r := cleanBody pixel_length sections s
    if r.2 then cleanLoop pixel_length r.1 (s - 1 + 1) (end_ - 1)
    else cleanLoop pixel_length r.1 (s + 1) end_
  else sections
termination_by 2 * end_ - s
decreasing_by all_goals omega

/-- The Section Cleaner: the clean-up loop run on the whole vector. -/
def cleanSections (pixel_length : ℚ) (sections : List PathSection) : List PathSection :=
  cleanLoop pixel_length sections 0 sections.length

/-- The effect of `widenAt` on the part of the vector that starts at the slot
addressed. -/
def widenHead : List PathSection → List PathSection
  | [] => []
  | next :: rest => widen next :: rest

/-- The section left at slot `s - 1` by a merge of `prev` and `sec`
(lines 340-353). -/
def mergedSection (sec prev : PathSection) : PathSection :=
  if shrinkPrev sec prev then { prev with end_clen := sec.end_clen }
  else { sec with start_clen := prev.start_clen }

/-- The clean-up loop on a split vector: `done` holds `sections[0..s)` in
reverse order (its head is `prev_section`), `cur` is `sections[s]` and `rest`
is `sections[s+1..]`.  It computes what `cleanLoop` computes (see
`cleanLoop_eq_cleanZip`) by recursion on `rest`. -/
def cleanZip (pixel_length : ℚ) :
    List PathSection → PathSection → List PathSection → List PathSection
  | [], cur, [] => [widen cur]
  | [], cur, next :: rest => cleanZip pixel_length [widen cur] next rest
  | prev :: done, cur, [] =>
    if mergeCondition pixel_length cur prev then (mergedSection cur prev :: done).reverse
    else (widen cur :: prev :: done).reverse
  | prev :: done, cur, next :: rest =>
    if mergeCondition pixel_length cur prev then
      cleanZip pixel_length (mergedSection cur prev :: done) (widen next) rest
    else cleanZip pixel_length (widen cur :: prev :: done) next rest

/-! ## `FillTool::fillBoundary`: path reconstruction and scene update -/

/-- A map coordinate. -/
abbrev MapCoord := ℚ × ℚ

/-- Modelled from the spec: `PathObject`, whose declaration (`object.h`) is not
among the sources, as far as `fillBoundary` looks at the new path: its symbol
and its coordinates. -/
structure PathObject where
  symbol : Nat
  coords : List MapCoord
deriving DecidableEq, Repr

/-- The path primitives `fillBoundary` calls (declared in `object.h`), as
functions on coordinate lists.
* `partLength o`: `o->getPart(0).getLength()`;
* `changePathBounds o a b`: the coordinates of `o->duplicatePart(0)` after
  `changePathBounds(0, a, b)`;
* `reverse`: `part_copy->reverse()`;
* `connectPathParts path part`: the coordinates of `path` after
  `path->connectPathParts(0, part, 0, false, false)`;
* `closeAllParts`: the coordinates of `path` after `path->closeAllParts()`. -/
structure PathOps where
  partLength : Nat → ℚ
  changePathBounds : Nat → ℚ → ℚ → List MapCoord
  reverse : List MapCoord → List MapCoord
  connectPathParts : List MapCoord → List MapCoord → List MapCoord
  closeAllParts : List MapCoord → List MapCoord

/-- The body of the reconstruction loop (lines 370-386) on the coordinates of
`path`. -/
def reconstructStep (ops : PathOps) (path : List MapCoord) (sec : PathSection) :
    List MapCoord :=
  if sec.start_clen > ops.partLength sec.object ∨ sec.end_clen > ops.partLength sec.object then
    path
  else
    let reverse : Bool := decide (sec.end_clen < sec.start_clen)
    let bounded := ops.changePathBounds sec.object
      (if reverse then sec.end_clen else sec.start_clen)
      (if reverse then sec.start_clen else sec.end_clen)
    let part_copy := if reverse then ops.reverse bounded else bounded
    if path.length = 0 then part_copy else ops.connectPathParts path part_copy

/-- The reconstruction loop (lines 367-387); a new `PathObject` has no
coordinates. -/
def reconstruct (ops : PathOps) (sections : List PathSection) : List MapCoord :=
  sections.foldl (reconstructStep ops) []

/-- Modelled from the spec: the state of the map (`Map`, declared in `map.h`,
not among the sources) that `fillBoundary` can change: the object collection,
the selection (indices of objects), the undo stack (each step a list of object
indices to delete) and the dirty flag. -/
structure MapState where
  objects : List PathObject
  selection : List Nat
  undoSteps : List (List Nat)
  objectsDirty : Bool
deriving DecidableEq, Repr

/-- Modelled from the spec: `Map::addObject`, which adds the object to the
object collection and returns its index. -/
def MapState.addObject (map : MapState) (path : PathObject) : MapState × Nat :=
  ({ map with objects := map.objects ++ [path] }, map.objects.length)

/-- Modelled from the spec: `Map::clearObjectSelection`. -/
def MapState.clearObjectSelection (map : MapState) : MapState :=
  { map with selection := [] }

/-- Modelled from the spec: `Map::addObjectToSelection`, for the object at
`index`. -/
def MapState.addObjectToSelection (map : MapState) (index : Nat) : MapState :=
  { map with selection := map.selection ++ [index] }

/-- Modelled from the spec: `objectUndoManager().addNewUndoStep` for a
`DeleteObjectsUndoStep` holding the object indices `step`. -/
def MapState.addNewUndoStep (map : MapState) (step : List Nat) : MapState :=
  { map with undoSteps := map.undoSteps ++ [step] }

/-- Modelled from the spec: `Map::setObjectsDirty`. -/
def MapState.setObjectsDirty (map : MapState) : MapState :=
  { map with objectsDirty := true }

/-- Lines 395-403: add the path to the map, make it the selection, record the
undo step that deletes it and mark the objects dirty. -/
def addFillObject (path : PathObject) (map : MapState) : MapState :=
  let added := map.addObject path
  let selected := (added.1.clearObjectSelection).addObjectToSelection added.2
  (selected.addNewUndoStep [added.2]).setObjectsDirty

/-- `FillTool::fillBoundary` for `last_used_symbol = symbol`: the returned flag
and the state of the map on return; `none` when the section builder indexes
`boundary` out of range. -/
def fillBoundary (env : SnapEnv) (ops : PathOps) (symbol : Nat) (boundary : List QPoint)
    (map : MapState) : Option (Bool × MapState) :=
  match buildSections env boundary with
  | none => none
  | some sections =>
    let path := reconstruct ops (cleanSections env.pixel_length sections)
    if path.length < 2 then some (false, map)
    else some (true, addFillObject ⟨symbol, ops.closeAllParts path⟩ map)

/-! ## The even-odd rule in exact arithmetic -/

/-- The edges the containment loop visits from index `i` on, as pairs
`(out_boundary[i], out_boundary[j])`. -/
def edgesFrom : QPoint → List QPoint → List (QPoint × QPoint)
  | _, [] => []
  | vj, vi :: rest => (vi, vj) :: edgesFrom vi rest

/-- The edges of the closed polygon through the contour: consecutive vertices,
and the last with the first. -/
def polygonEdges (out : List QPoint) : List (QPoint × QPoint) :=
  match out.getLast? with
  | none => []
  | some last => edgesFrom last out

/-- The horizontal ray from `p` toward larger `x` crosses the edge between
`e.1` and `e.2`: the end points lie on different sides of the ray's line and
the crossing point, computed in the rationals, lies to the right of `p`. -/
def crossesRay (p : QPoint) (e : QPoint × QPoint) : Bool :=
  (decide (e.1.y > p.y) != decide (e.2.y > p.y)) &&
    decide ((p.x : ℚ) <
      ((e.2.x : ℚ) - e.1.x) * ((p.y : ℚ) - e.1.y) / ((e.2.y : ℚ) - e.1.y) + e.1.x)

/-- The number of polygon edges the ray from `p` crosses. -/
def crossingCount (p : QPoint) (out : List QPoint) : Nat :=
  (polygonEdges out).countP (crossesRay p)

/-! ## Predicates used in the statements -/

/-- One of the four unit vectors along the axes. -/
def UnitAxis (v : QPoint) : Prop :=
  v = ⟨1, 0⟩ ∨ v = ⟨-1, 0⟩ ∨ v = ⟨0, 1⟩ ∨ v = ⟨0, -1⟩

/-- Two pixels that differ by at most 1 in each coordinate: equal, 4-adjacent
or 8-adjacent. -/
def Near (a b : QPoint) : Prop := abs (a.x - b.x) ≤ 1 ∧ abs (a.y - b.y) ≤ 1

/-- Two distinct pixels that are 4- or 8-adjacent. -/
def Adjacent (a b : QPoint) : Prop := a ≠ b ∧ Near a b

/-- Column `x` of the clicked row is a collision of the scan: it is not left
of the click, it is left of the last column, the pixel is free and its right
neighbour is obstructed. -/
def Collision (img : QImage) (clicked : QPoint) (x : Int) : Prop :=
  clicked.x ≤ x ∧ x < (img.width : Int) - 1 ∧
    occupied img ⟨x, clicked.y⟩ = false ∧ occupied img ⟨x + 1, clicked.y⟩ = true

/-- The call of `traceBoundary` the scan makes at column `x` of the clicked
row. -/
def traceAt (img : QImage) (clicked : QPoint) (x : Int) : Bool × List QPoint :=
  traceBoundary img ⟨x, clicked.y⟩ ⟨x + 1, clicked.y⟩

/-- A list of sections the Section Cleaner has nothing to do on: no section
is changed by lines 362-363 (a section with `start_clen == end_clen` whose
rounded sum `end_clen + epsilon` differs from `end_clen`), and no section
satisfies the merge condition with the section before it. -/
def Stable (pixel_length : ℚ) (sections : List PathSection) : Prop :=
  (∀ sec ∈ sections,
      ¬ (sec.end_clen = sec.start_clen ∧ roundFloat (sec.end_clen + epsilon) ≠ sec.end_clen)) ∧
    List.Chain' (fun prev cur => mergeCondition pixel_length cur prev = false) sections

/-- The samples the builder keeps: the snap results (object, arc length) of
the contour pixels that snapped to a path, in contour order. -/
def keptSamples (env : SnapEnv) (boundary : List QPoint) : List (Nat × ℚ) :=
  boundary.filterMap env.snap

/-- The section `sec` stands for the run of samples `run`: the run is not
empty, all its samples belong to the section's object, its first arc length
is `start_clen`, its last one is `end_clen`, and its arc lengths are all
non-decreasing or all non-increasing. -/
def RunOf (sec : PathSection) (run : List (Nat × ℚ)) : Prop :=
  (∀ s ∈ run, s.1 = sec.object) ∧
    (run.map Prod.snd).head? = some sec.start_clen ∧
    (run.map Prod.snd).getLast? = some sec.end_clen ∧
    (List.Chain' (fun a b : ℚ => a ≤ b) (run.map Prod.snd) ∨
      List.Chain' (fun a b : ℚ => b ≤ a) (run.map Prod.snd))

/-- The invariant the builder keeps for the open section and its run: as
`RunOf`, with the direction of the run tied to the sign of
`end_clen - start_clen`. -/
def RunInv (sec : PathSection) (run : List (Nat × ℚ)) : Prop :=
  (∀ s ∈ run, s.1 = sec.object) ∧
    (run.map Prod.snd).head? = some sec.start_clen ∧
    (run.map Prod.snd).getLast? = some sec.end_clen ∧
    (sec.start_clen < sec.end_clen → List.Chain' (fun a b : ℚ => a ≤ b) (run.map Prod.snd)) ∧
    (sec.end_clen < sec.start_clen → List.Chain' (fun a b : ℚ => b ≤ a) (run.map Prod.snd)) ∧
    (sec.start_clen = sec.end_clen → ∀ c ∈ run.map Prod.snd, c = sec.start_clen)

/-- The horizontal ray from `p` toward smaller `x` crosses the edge `e`
(computed in the rationals). -/
def crossesRayLeft (p : QPoint) (e : QPoint × QPoint) : Bool :=
  (decide (e.1.y > p.y) != decide (e.2.y > p.y)) &&
    decide (((e.2.x : ℚ) - e.1.x) * ((p.y : ℚ) - e.1.y) / ((e.2.y : ℚ) - e.1.y) + e.1.x <
      (p.x : ℚ))

/-! ## The tracing loop with the contour kept in reverse -/

/-- The conditional `push_back` on a contour stored last entry first. -/
def pushIfNewRev (out : List QPoint) (cur : QPoint) : List QPoint :=
  if out.head? ≠ some cur then cur :: out else out

/-- The tracing loop with the contour stored last entry first.  It computes
what `traceLoop` computes (see `traceLoop_eq_rev`) without walking to the end
of the list in every iteration. -/
def traceLoopRev (img : QImage) (start test : QPoint) :
    Nat → QPoint → QPoint → List QPoint → LoopExit × List QPoint
  | 0, _, _, out => (LoopExit.exhausted, out)
  | n + 1, cur, fwd, out =>
    if !rectContains img (cur + fwd + rightVector fwd) then (LoopExit.outOfRect, out)
    else if !rectContains img (cur + rightVector fwd) then (LoopExit.outOfRect, out)
    else
      let m := traceMove img cur fwd
      if m.1 = test ∧ m.1 + m.2 = start then (LoopExit.closed, out)
      else traceLoopRev img start test n m.1 m.2 (pushIfNewRev out m.1)

/-! ## Concrete inputs -/

/-- An image given by its rows of alpha values. -/
def imageOfRows (w h : Nat) (rows : List (List Nat)) : QImage :=
  { width := w, height := h,
    alpha := fun x y => ((rows.getD y.toNat []).getD x.toNat 0) }

/-- A 7x7 image with a 3x3 ring of obstructed pixels around the free pixel
(3, 3). -/
def ringImage : QImage :=
  imageOfRows 7 7
    [[0, 0, 0, 0, 0, 0, 0],
     [0, 0, 0, 0, 0, 0, 0],
     [0, 0, 255, 255, 255, 0, 0],
     [0, 0, 255, 0, 255, 0, 0],
     [0, 0, 255, 255, 255, 0, 0],
     [0, 0, 0, 0, 0, 0, 0],
     [0, 0, 0, 0, 0, 0, 0]]

/-- A 30x30 image in which the rows 1 and 28 and the columns 1 and 28 are
obstructed, forming a closed frame, and inside the frame every third diagonal
is an obstructed line one pixel wide; the lines touch the frame at the left
and at the bottom and leave a free channel along it at the top and at the
right. -/
def hatchImage : QImage :=
  { width := 30, height := 30,
    alpha := fun x y =>
      if x = 1 ∨ x = 28 ∨ y = 1 ∨ y = 28 then 255
      else if (x + y) % 3 = 0 ∧ 2 ≤ x ∧ x ≤ 26 ∧ 3 ≤ y ∧ y ≤ 27 then 255
      else 0 }

/-- Path primitives of a map in which part 0 of every object is the straight
line from `(0, 0)` to `(100, 0)`. -/
def lineOps : PathOps :=
  { partLength := fun _ => 100,
    changePathBounds := fun _ a b => [(a, 0), (b, 0)],
    reverse := List.reverse,
    connectPathParts := fun path part => path ++ part,
    closeAllParts := fun path => path ++ path.take 1 }

/-- A quadrilateral with one slanted edge, from (0, 0) to (1, 2). -/
def slantedQuad : List QPoint := [⟨0, 0⟩, ⟨5, 0⟩, ⟨5, 2⟩, ⟨1, 2⟩]

/-- A snapping environment in which every pixel `(x, y)` snaps to object 0 at
arc length `x`, neighbouring pixels are at scene distance 1 and a pixel step
has scene length 1. -/
def lineEnv : SnapEnv :=
  { snap := fun p => some (0, (p.x : ℚ)), dist := fun _ _ => 1, pixel_length := 1 }

/-- A snapping environment in which no pixel snaps to a path. -/
def noSnapEnv : SnapEnv :=
  { snap := fun _ => none, dist := fun _ _ => 1, pixel_length := 1 }

/-- A map without objects. -/
def emptyMap : MapState :=
  { objects := [], selection := [], undoSteps := [], objectsDirty := false }

/-- The pixels `(0, 0), (1, 0), ..., (n - 1, 0)`. -/
def rowPixels (n : Nat) : List QPoint := (List.range n).map (fun i => ⟨(i : Int), 0⟩)

/-- A snapping environment in which pixel `(x, y)` snaps to the `x`-th of the
given samples, neighbouring pixels are at scene distance 1 and a pixel step
has scene length 1. -/
def sampledEnv (samples : List (Nat × ℚ)) : SnapEnv :=
  { snap := fun p => samples[p.x.toNat]?, dist := fun _ _ => 1, pixel_length := 1 }

/-- Samples along object 0 from 0 up to 10, back to 9 and up to 20, back down
to 5, then two samples on object 1. -/
def backtrackSamples : List (Nat × ℚ) :=
  [(0, 0), (0, 5), (0, 10), (0, 9), (0, 14), (0, 19), (0, 20), (0, 19), (0, 14), (0, 9),
   (0, 5), (1, 5), (1, 7)]

/-- The sections the builder makes of `backtrackSamples`: on object 0 from 0
to 10, from 9 to 20 and back from 19 to 5, then a section on object 1. -/
def backtrackSections : List PathSection :=
  [⟨0, 0, 10⟩, ⟨0, 9, 20⟩, ⟨0, 19, 5⟩, ⟨1, 5, 7⟩]

/-- Samples along object 0 from 0 up to 10 and back down to 0, then two
samples on object 1. -/
def thereAndBackSamples : List (Nat × ℚ) :=
  [(0, 0), (0, 5), (0, 10), (0, 9), (0, 4), (0, 0), (1, 5), (1, 7)]

/-- The sections the builder makes of `thereAndBackSamples`: on object 0 from
0 to 10 and back from 9 to 0, then a section on object 1. -/
def thereAndBackSections : List PathSection :=
  [⟨0, 0, 10⟩, ⟨0, 9, 0⟩, ⟨1, 5, 7⟩]

/-! ## The clean-up loop with another branch test -/

/-- The body of the clean-up loop with the test of line 340 replaced by
`test`; `cleanBodyWith shrinkPrev` is `cleanBody`. -/
def cleanBodyWith (test : PathSection → PathSection → Bool) (pixel_length : ℚ)
    (sections : List PathSection) (s : Nat) : List PathSection × Bool :=
  let sec := sections.getD s default
  let prev := sections.getD (s - 1) default
  if 0 < s ∧ mergeCondition pixel_length sec prev then
    if test sec prev then
      (widenAt ((sections.set (s - 1) { prev with end_clen := sec.end_clen }).eraseIdx s) s, true)
    else
      (widenAt ((sections.set s { sec with start_clen := prev.start_clen }).eraseIdx (s - 1)) s, true)
  else (widenAt sections s, false)

/-- The clean-up loop with the test of line 340 replaced by `test`. -/
def cleanLoopWith (test : PathSection → PathSection → Bool) (pixel_length : ℚ)
    (sections : List PathSection) (s end_ : Nat) : List PathSection :=
  if h : s < end_ then
    let r := cleanBodyWith test pixel_length sections s
    if r.2 then cleanLoopWith test pixel_length r.1 (s - 1 + 1) (end_ - 1)
    else cleanLoopWith test pixel_length r.1 (s + 1) end_
  else sections
termination_by 2 * end_ - s
decreasing_by all_goals omega

/-- The Section Cleaner with the test of line 340 replaced by `test`. -/
def cleanSectionsWith (test : PathSection → PathSection → Bool) (pixel_length : ℚ)
    (sections : List PathSection) : List PathSection :=
  cleanLoopWith test pixel_length sections 0 sections.length

/-! ## The tracing loop with checked pixel access -/

/-- The call `image.pixel(p)` with the range check of `QImage::pixel` made
visible: `none` stands for its out-of-range branch (the warning and the
constant `12345`), `some a` for the alpha channel of an addressed pixel. -/
def pixelAlphaChecked (img : QImage) (p : QPoint) : Option Nat :=
  if img.valid p then some (img.alpha p.x p.y) else none

/-- The three-way branch of the loop body (lines 247-261) with checked pixel
access: `none` when one of its reads is out of range.  The second pixel is
read only when the first is free. -/
def traceMoveChecked (img : QImage) (cur fwd : QPoint) : Option (QPoint × QPoint) :=
  match pixelAlphaChecked img (cur + fwd + rightVector fwd) with
  | none => none
  | some a =>
    if a > 0 then some (cur + fwd + rightVector fwd, -(rightVector fwd))
    else
      match pixelAlphaChecked img (cur + rightVector fwd) with
      | none => none
      | some b =>
        if b > 0 then some (cur + rightVector fwd, fwd)
        else some (cur, rightVector fwd)

/-- The tracing loop (lines 239-271) with checked pixel access: `none` when a
pixel read in the loop is out of range. -/
def traceLoopChecked (img : QImage) (start test : QPoint) :
    Nat → QPoint → QPoint → List QPoint → Option (LoopExit × List QPoint)
  | 0, _, _, out => some (LoopExit.exhausted, out)
  | n + 1, cur, fwd, out =>
    if !rectContains img (cur + fwd + rightVector fwd) then some (LoopExit.outOfRect, out)
    else if !rectContains img (cur + rightVector fwd) then some (LoopExit.outOfRect, out)
    else
      match traceMoveChecked img cur fwd with
      | none => none
      | some m =>
        if m.1 = test ∧ m.1 + m.2 = start then some (LoopExit.closed, out)
        else traceLoopChecked img start test n m.1 m.2 (pushIfNew out m.1)

/-- The states in which the tracing loop of `traceBoundary img start test`
evaluates its condition `i < max_length`: the number `max_length - i` of
iterations still allowed, `cur_pixel`, `fwd_vector` and `out_boundary`.  The
loop starts in the first state and goes from one state to the next when both
checks of lines 242-245 pass and the `break` of line 265 is not taken. -/
inductive Reached (img : QImage) (start test : QPoint) :
    Nat → QPoint → QPoint → List QPoint → Prop where
  | init : Reached img start test (img.width * img.height) test (start - test) [test]
  | step {n : Nat} {cur fwd : QPoint} {out : List QPoint} :
      Reached img start test (n + 1) cur fwd out →
      rectContains img (cur + fwd + rightVector fwd) = true →
      rectContains img (cur + rightVector fwd) = true →
      ¬ ((traceMove img cur fwd).1 = test ∧
        (traceMove img cur fwd).1 + (traceMove img cur fwd).2 = start) →
      Reached img start test n (traceMove img cur fwd).1 (traceMove img cur fwd).2
        (pushIfNew out (traceMove img cur fwd).1)

/-- A state of the wall follower as the comment of lines 232-235 describes it:
`fwd_vector` is a unit vector along an axis, `cur_pixel` is obstructed and
`cur_pixel + fwd_vector` is free. -/
def ValidState (img : QImage) (cur fwd : QPoint) : Prop :=
  UnitAxis fwd ∧ occupied img cur = true ∧ occupied img (cur + fwd) = false

/-! ## The wall follower on the unbounded grid -/

/-- The state after `k` applications of the three-way branch of the loop body
(lines 247-261), without the checks against the image rectangle. -/
def traceIter (img : QImage) : Nat → QPoint × QPoint → QPoint × QPoint
  | 0, s => s
  | k + 1, s => traceMove img (traceIter img k s).1 (traceIter img k s).2

/-- The step of the wall follower read backwards: from the state after the
three-way branch to the state before it.  With `a = cur - right` and
`b = a + fwd`: the state came by the diagonal move when `b` is obstructed, by
the move to the right when `b` is free and `a` obstructed, and by the pivot
when both are free. -/
def traceBack (img : QImage) (cur fwd : QPoint) : QPoint × QPoint :=
  if occupied img (cur - rightVector fwd + fwd) then
    (cur - rightVector fwd + fwd, rightVector fwd)
  else if occupied img (cur - rightVector fwd) then
    (cur - rightVector fwd, fwd)
  else
    (cur, -(rightVector fwd))

/-- A number for each of the four unit vectors along the axes. -/
def dirIndex (v : QPoint) : Nat :=
  if v = ⟨1, 0⟩ then 0 else if v = ⟨-1, 0⟩ then 1 else if v = ⟨0, 1⟩ then 2 else 3

/-! ## The scan with a record of its pixel reads and tracer calls -/

/-- What the scan of `clickPress` does to the image besides computing: it
reads a pixel (`image.pixel` at line 132 or 144) or calls `traceBoundary`
with a `start_pixel` and a `test_pixel` (line 138). -/
inductive ScanEvent where
  | read (p : QPoint)
  | trace (start test : QPoint)
deriving DecidableEq, Repr

/-- The inner `while` loop (lines 143-145) with the pixels it reads.  The right
operand of `&&` is evaluated, and the pixel read, only when the left one
holds. -/
def skipRunLog (img : QImage) (y : Int) : Nat → Int → Option Int × List ScanEvent
  | 0, _ => (none, [])
  | n + 1, x =>
    if x < (img.width : Int) - 1 then
      if occupied img ⟨x, y⟩ then
        ((skipRunLog img y n (x + 1)).1,
          ScanEvent.read ⟨x, y⟩ :: (skipRunLog img y n (x + 1)).2)
      else (some x, [ScanEvent.read ⟨x, y⟩])
    else (some x, [])

/-- The `for` loop of `clickPress` (lines 128-160) with the pixels it reads and
the calls of `traceBoundary` it makes, in order. -/
def scanLoopLog (img : QImage) : Nat → QPoint → Option ClickResult × List ScanEvent
  | 0, _ => (none, [])
  | n + 1, start =>
    if start.x < (img.width : Int) - 1 then
      let test : QPoint := start + ⟨1, 0⟩
      if !occupied img test then
        ((scanLoopLog img n (start + ⟨1, 0⟩)).1,
          ScanEvent.read test :: (scanLoopLog img n (start + ⟨1, 0⟩)).2)
      else
        let r := traceBoundary img start test
        if !r.1 then
          let skip := skipRunLog img start.y (n + 1) (start.x + 1)
          match skip.1 with
          | none => (none, ScanEvent.read test :: ScanEvent.trace start test :: skip.2)
          | some x =>
            ((scanLoopLog img n (⟨x, start.y⟩ - ⟨1, 0⟩ + ⟨1, 0⟩)).1,
              ScanEvent.read test :: ScanEvent.trace start test ::
                (skip.2 ++ (scanLoopLog img n (⟨x, start.y⟩ - ⟨1, 0⟩ + ⟨1, 0⟩)).2))
        else (some (ClickResult.fill r.2), [ScanEvent.read test, ScanEvent.trace start test])
    else (some ClickResult.notBounded, [])

/-- An event of the scan that keeps to the preconditions: a read addresses a
pixel of the image; a call of `traceBoundary` has a free `start_pixel` inside
the image and `test_pixel = start_pixel + (1, 0)`, obstructed and inside the
image, so that both assertions of lines 225-226 hold. -/
def ScanEvent.Safe (img : QImage) : ScanEvent → Prop
  | ScanEvent.read p => img.valid p = true
  | ScanEvent.trace start test =>
    img.valid start = true ∧ occupied img start = false ∧ test = start + ⟨1, 0⟩ ∧
      img.valid test = true ∧ occupied img test = true

/-- A snapping environment for the contour `(0, 0), (1, 0), (2, 0)`: the first
pixel snaps to object 0 at arc length 0, the second does not snap, the third
snaps to object 0 at arc length 8; the scene distance to the second pixel is
1, to any other pixel 100. -/
def gapEnv : SnapEnv :=
  { snap := fun p => if p.x = 0 then some (0, 0) else if p.x = 2 then some (0, 8) else none,
    dist := fun _ q => if q.x = 1 then 1 else 100,
    pixel_length := 1 }

/-- A finite `float`: a value of the single-precision grid below `2^128`. -/
def IsFloat (x : ℚ) : Prop := roundFloat x = x ∧ |x| < ((2 ^ 128 : Nat) : ℚ)

/-- The arc lengths of the section come from values with the property `P` of
its object: `start_clen` is such a value, and `end_clen` is such a value or
the rounded sum of such a value and `epsilon` (line 363). -/
def FromSamples (P : Nat → ℚ → Prop) (sec : PathSection) : Prop :=
  P sec.object sec.start_clen ∧
    (P sec.object sec.end_clen ∨
      ∃ c, P sec.object c ∧ sec.end_clen = roundFloat (c + epsilon))

/-! ## Theorems -/

@[simp] theorem QPoint.add_x (a b : QPoint) : (a + b).x = a.x + b.x := rfl
@[simp] theorem QPoint.add_y (a b : QPoint) : (a + b).y = a.y + b.y := rfl
@[simp] theorem QPoint.sub_x (a b : QPoint) : (a - b).x = a.x - b.x := rfl
@[simp] theorem QPoint.sub_y (a b : QPoint) : (a - b).y = a.y - b.y := rfl
@[simp] theorem QPoint.neg_x (a : QPoint) : (-a).x = -a.x := rfl
@[simp] theorem QPoint.neg_y (a : QPoint) : (-a).y = -a.y := rfl

theorem QPoint.ext_iff2 (a b : QPoint) : a = b ↔ a.x = b.x ∧ a.y = b.y := by
  cases a; cases b; simp

/-! ### The contour produced by the tracing loop -/

theorem traceMove_near (img : QImage) (cur fwd : QPoint) (h : UnitAxis fwd) :
    Near cur (traceMove img cur fwd).1 ∧ UnitAxis (traceMove img cur fwd).2 := by
  unfold traceMove
  rcases h with h | h | h | h <;> subst h <;> split_ifs <;>
    simp [Near, UnitAxis, rightVector, QPoint.ext_iff2]

theorem pushIfNew_getLast (out : List QPoint) (c : QPoint) :
    (pushIfNew out c).getLast? = some c := by
  unfold pushIfNew
  split_ifs with hc
  · simp
  · simpa using hc

theorem pushIfNew_head (out : List QPoint) (c t : QPoint)
    (h : out.head? = some t) : (pushIfNew out c).head? = some t := by
  unfold pushIfNew
  split_ifs
  · cases out with
    | nil => simp at h
    | cons a l => simpa using h
  · exact h

theorem pushIfNew_chain (out : List QPoint) (cur c : QPoint)
    (hl : out.getLast? = some cur) (hn : Near cur c) (hc : List.Chain' Adjacent out) :
    List.Chain' Adjacent (pushIfNew out c) := by
  unfold pushIfNew
  split_ifs with hne
  · rw [List.chain'_append]
    refine ⟨hc, List.chain'_singleton c, ?_⟩
    intro x hx y hy
    rw [hl] at hx
    simp at hx hy
    subst hx; subst hy
    refine ⟨?_, hn⟩
    intro he
    apply hne
    rw [hl, he]
  · exact hc

theorem traceLoop_contour (img : QImage) (start test : QPoint) :
    ∀ (n : Nat) (cur fwd : QPoint) (out : List QPoint),
      UnitAxis fwd → out.getLast? = some cur → out.head? = some test →
      List.Chain' Adjacent out →
      List.Chain' Adjacent (traceLoop img start test n cur fwd out).2 ∧
      (traceLoop img start test n cur fwd out).2.head? = some test ∧
      ((traceLoop img start test n cur fwd out).1 = LoopExit.closed →
        ∃ last, (traceLoop img start test n cur fwd out).2.getLast? = some last ∧
          Near last test) := by
  intro n
  induction n with
  | zero =>
    intro cur fwd out _ _ hh hc
    simp [traceLoop, hh, hc]
  | succ n ih =>
    intro cur fwd out hu hl hh hc
    have hm := traceMove_near img cur fwd hu
    rw [traceLoop]
    dsimp only
    split_ifs with h1 h2 h3
    · simp [hh, hc]
    · simp [hh, hc]
    · refine ⟨hc, hh, fun _ => ⟨cur, hl, ?_⟩⟩
      rw [← h3.1]
      exact hm.1
    · exact ih _ _ _ hm.2 (pushIfNew_getLast out _) (pushIfNew_head out _ test hh)
        (pushIfNew_chain out cur _ hl hm.1 hc)

theorem traceBoundary_snd (img : QImage) (start test : QPoint) :
    (traceBoundary img start test).2 = (traceRun img start test).2 := by
  unfold traceBoundary
  split <;> simp_all

/-- C5. For every image and every `start_pixel`, with `test_pixel` its right
neighbour: in the contour `out_boundary` left by `traceBoundary` every two
consecutive entries are distinct and differ by at most 1 in x and in y, the
first entry is `test_pixel`, and when the tracing loop ends by closing, the
last entry is equal or 8-adjacent to the first. -/
theorem traceBoundary_contour_adjacent (img : QImage) (start : QPoint) :
    List.Chain' Adjacent (traceBoundary img start (start + ⟨1, 0⟩)).2 ∧
    (traceBoundary img start (start + ⟨1, 0⟩)).2.head? = some (start + ⟨1, 0⟩) ∧
    ((traceRun img start (start + ⟨1, 0⟩)).1 = LoopExit.closed →
      ∃ last, (traceBoundary img start (start + ⟨1, 0⟩)).2.getLast? = some last ∧
        Near last (start + ⟨1, 0⟩)) := by
  rw [traceBoundary_snd]
  unfold traceRun
  apply traceLoop_contour
  · right; left
    simp [QPoint.ext_iff2]
  · rfl
  · rfl
  · exact List.chain'_singleton _

theorem traceBoundary_contour_adjacent_witness :
    (traceRun ringImage ⟨3, 3⟩ (⟨3, 3⟩ + ⟨1, 0⟩)).1 = LoopExit.closed ∧
    ∃ last, (traceBoundary ringImage ⟨3, 3⟩ (⟨3, 3⟩ + ⟨1, 0⟩)).2.getLast? = some last ∧
      Near last (⟨3, 3⟩ + ⟨1, 0⟩) :=
  ⟨by decide, (traceBoundary_contour_adjacent ringImage ⟨3, 3⟩).2.2 (by decide)⟩

/-! ### The scan of `clickPress` -/

theorem QPoint.step_right (x y : Int) : (⟨x, y⟩ : QPoint) + ⟨1, 0⟩ = ⟨x + 1, y⟩ := by
  simp [QPoint.ext_iff2]

theorem QPoint.back_and_forth (x y : Int) :
    (⟨x, y⟩ : QPoint) - ⟨1, 0⟩ + ⟨1, 0⟩ = ⟨x, y⟩ := by
  simp [QPoint.ext_iff2]

theorem occupied_of_all_free (img : QImage) (h : ∀ x y, img.alpha x y = 0) (p : QPoint) :
    occupied img p = false := by
  simp [occupied, pixelAlpha, h]

theorem scanLoop_all_free (img : QImage) (h : ∀ x y, img.alpha x y = 0) :
    ∀ (n : Nat) (x y : Int), ((img.width : Int) - 1 - x).toNat < n →
      scanLoop img n ⟨x, y⟩ = some ClickResult.notBounded := by
  intro n
  induction n with
  | zero => intro x y hn; omega
  | succ n ih =>
    intro x y hn
    rw [scanLoop]
    dsimp only
    by_cases h1 : x < (img.width : Int) - 1
    · rw [if_pos h1, occupied_of_all_free img h, if_pos (by rfl), QPoint.step_right]
      apply ih
      omega
    · rw [if_neg h1]

/-- C10. For every image in which every pixel is free and for every clicked
pixel, `clickPress` ends with the "not bounded" warning; in particular it
never calls `fillBoundary`. -/
theorem clickPress_all_free (img : QImage) (h : ∀ x y, img.alpha x y = 0) (clicked : QPoint) :
    clickPress img clicked = some ClickResult.notBounded := by
  unfold clickPress
  split_ifs with h1 h2
  · rfl
  · rw [occupied_of_all_free img h] at h2
    exact absurd h2 (by simp)
  · obtain ⟨x, y⟩ := clicked
    apply scanLoop_all_free img h
    simp [rectContains] at h1
    omega

theorem clickPress_all_free_witness :
    clickPress ⟨5, 5, fun _ _ => 0⟩ ⟨2, 2⟩ = some ClickResult.notBounded :=
  clickPress_all_free ⟨5, 5, fun _ _ => 0⟩ (fun _ _ => rfl) ⟨2, 2⟩

theorem skipRun_spec (img : QImage) (y : Int) :
    ∀ (n : Nat) (x : Int), ((img.width : Int) - 1 - x).toNat < n →
      ∃ x', skipRun img y n x = some x' ∧ x ≤ x' ∧
        (∀ z, x ≤ z → z < x' → occupied img ⟨z, y⟩ = true) ∧
        (x' < (img.width : Int) - 1 → occupied img ⟨x', y⟩ = false) := by
  intro n
  induction n with
  | zero => intro x hn; omega
  | succ n ih =>
    intro x hn
    rw [skipRun]
    by_cases h : x < (img.width : Int) - 1 ∧ occupied img ⟨x, y⟩ = true
    · rw [if_pos h]
      obtain ⟨x', h1, h2, h3, h4⟩ := ih (x + 1) (by omega)
      refine ⟨x', h1, by omega, ?_, h4⟩
      intro z hz1 hz2
      by_cases hz : z = x
      · rw [hz]; exact h.2
      · exact h3 z (by omega) hz2
    · rw [if_neg h]
      refine ⟨x, rfl, le_refl x, ?_, ?_⟩
      · intro z hz1 hz2; omega
      · intro hx
        by_contra hc
        exact h ⟨hx, by simpa using hc⟩

/-- What the scan computes from column `x` of the clicked row on. -/
theorem scanLoop_spec (img : QImage) (y : Int) :
    ∀ (n : Nat) (x : Int), ((img.width : Int) - 1 - x).toNat < n →
      (x < (img.width : Int) - 1 → occupied img ⟨x, y⟩ = false) →
      (scanLoop img n ⟨x, y⟩ = some ClickResult.notBounded ∧
        ∀ z, Collision img ⟨x, y⟩ z → (traceAt img ⟨x, y⟩ z).1 = false) ∨
      ∃ z, Collision img ⟨x, y⟩ z ∧ (traceAt img ⟨x, y⟩ z).1 = true ∧
        scanLoop img n ⟨x, y⟩ = some (ClickResult.fill (traceAt img ⟨x, y⟩ z).2) ∧
        ∀ z', Collision img ⟨x, y⟩ z' → z' < z → (traceAt img ⟨x, y⟩ z').1 = false := by
  intro n
  induction n with
  | zero => intro x hn; omega
  | succ n ih =>
    intro x hn hfree
    rw [scanLoop]
    dsimp only
    by_cases h1 : x < (img.width : Int) - 1
    · rw [if_pos h1, QPoint.step_right]
      by_cases h2 : occupied img ⟨x + 1, y⟩ = true
      · rw [if_neg (by simp [h2])]
        by_cases h3 : (traceBoundary img ⟨x, y⟩ ⟨x + 1, y⟩).1 = true
        · rw [if_neg (by simp [h3])]
          right
          refine ⟨x, ⟨le_refl x, h1, hfree h1, h2⟩, h3, rfl, ?_⟩
          intro z' hz' hlt
          have := hz'.1
          simp at this
          omega
        · rw [if_pos (by simpa using h3)]
          obtain ⟨x', e1, e2, e3, e4⟩ := skipRun_spec img y (n + 1) (x + 1) (by omega)
          rw [e1]
          dsimp only
          rw [QPoint.back_and_forth]
          have hskip : ∀ z, Collision img ⟨x, y⟩ z → z < x' → z = x := by
            intro z hz hlt
            by_contra hne
            have hz1 : x ≤ z := hz.1
            have := e3 z (by omega) hlt
            have hz3 : occupied img ⟨z, y⟩ = false := hz.2.2.1
            rw [hz3] at this
            exact absurd this (by simp)
          have hx : (traceAt img ⟨x, y⟩ x).1 = false := by simpa [traceAt] using h3
          rcases ih x' (by omega) e4 with ⟨r1, r2⟩ | ⟨z, c1, c2, c3, c4⟩
          · left
            refine ⟨r1, ?_⟩
            intro z hz
            by_cases hlt : z < x'
            · rw [hskip z hz hlt]; exact hx
            · exact r2 z ⟨by simp; omega, hz.2.1, hz.2.2.1, hz.2.2.2⟩
          · right
            have cz : x' ≤ z := c1.1
            refine ⟨z, ⟨by simp; omega, c1.2.1, c1.2.2.1, c1.2.2.2⟩, c2, c3, ?_⟩
            intro z' hz' hlt'
            by_cases hlt : z' < x'
            · rw [hskip z' hz' hlt]; exact hx
            · exact c4 z' ⟨by simp; omega, hz'.2.1, hz'.2.2.1, hz'.2.2.2⟩ hlt'
      · rw [if_pos (by simpa using h2)]
        have h2' : occupied img ⟨x + 1, y⟩ = false := by simpa using h2
        have hnot : ∀ z, Collision img ⟨x, y⟩ z → x + 1 ≤ z := by
          intro z hz
          by_contra hlt
          have hz1 : x ≤ z := hz.1
          have hzx : z = x := by omega
          have := hz.2.2.2
          rw [hzx] at this
          simp at this
          rw [h2'] at this
          exact absurd this (by simp)
        rcases ih (x + 1) (by omega) (fun _ => h2') with ⟨r1, r2⟩ | ⟨z, c1, c2, c3, c4⟩
        · left
          refine ⟨r1, ?_⟩
          intro z hz
          exact r2 z ⟨hnot z hz, hz.2.1, hz.2.2.1, hz.2.2.2⟩
        · right
          have cz : x + 1 ≤ z := c1.1
          refine ⟨z, ⟨by simp; omega, c1.2.1, c1.2.2.1, c1.2.2.2⟩, c2, c3, ?_⟩
          intro z' hz' hlt'
          exact c4 z' ⟨hnot z' hz', hz'.2.1, hz'.2.2.1, hz'.2.2.2⟩ hlt'
    · rw [if_neg h1]
      left
      refine ⟨rfl, ?_⟩
      intro z hz
      have hz1 : x ≤ z := hz.1
      have := hz.2.1
      omega

/-- C7. For every image and every accepted click (inside the image rectangle
and free), the scan of `clickPress` finishes; it hands to `fillBoundary` the
contour `b` exactly when `b` is the contour traced at the leftmost collision
whose `traceBoundary` call returns true, and it ends with the "not bounded"
warning exactly when no collision has a trace that returns true.  Collisions
whose trace returns false are passed over. -/
theorem clickPress_leftmost_enclosing (img : QImage) (clicked : QPoint)
    (hin : rectContains img clicked = true) (hfree : occupied img clicked = false) :
    (∀ b, clickPress img clicked = some (ClickResult.fill b) ↔
      ∃ x, Collision img clicked x ∧ traceAt img clicked x = (true, b) ∧
        ∀ x', Collision img clicked x' → x' < x → (traceAt img clicked x').1 = false) ∧
    (clickPress img clicked = some ClickResult.notBounded ↔
      ∀ x, Collision img clicked x → (traceAt img clicked x).1 = false) ∧
    (∃ r, clickPress img clicked = some r) := by
  obtain ⟨cx, cy⟩ := clicked
  have hfuel : ((img.width : Int) - 1 - cx).toNat < img.width + 1 := by
    simp [rectContains] at hin
    omega
  have hcp : clickPress img ⟨cx, cy⟩ = scanLoop img (img.width + 1) ⟨cx, cy⟩ := by
    unfold clickPress
    rw [if_neg (by simp [hin]), if_neg (by simp [hfree])]
  rw [hcp]
  rcases scanLoop_spec img cy (img.width + 1) cx hfuel (fun _ => hfree) with
    ⟨r1, r2⟩ | ⟨z, c1, c2, c3, c4⟩
  · rw [r1]
    refine ⟨?_, ?_, ⟨_, rfl⟩⟩
    · intro b
      constructor
      · intro h; simp at h
      · rintro ⟨x, hx, ht, _⟩
        have := r2 x hx
        rw [ht] at this
        simp at this
    · exact ⟨fun _ => r2, fun _ => rfl⟩
  · rw [c3]
    refine ⟨?_, ?_, ⟨_, rfl⟩⟩
    · intro b
      constructor
      · intro h
        have hb : (traceAt img ⟨cx, cy⟩ z).2 = b := by simpa using h
        refine ⟨z, c1, ?_, c4⟩
        rw [← hb, ← c2]
      · rintro ⟨x, hx, ht, hleft⟩
        have hxt : (traceAt img ⟨cx, cy⟩ x).1 = true := by rw [ht]
        have hxz : x = z := by
          rcases lt_trichotomy x z with hlt | heq | hgt
          · have := c4 x hx hlt
            rw [hxt] at this
            simp at this
          · exact heq
          · have := hleft z c1 hgt
            rw [c2] at this
            simp at this
        rw [← hxz, ht]
    · constructor
      · intro h; simp at h
      · intro h
        have := h z c1
        rw [c2] at this
        simp at this

theorem clickPress_leftmost_enclosing_witness :
    rectContains ringImage ⟨3, 3⟩ = true ∧ occupied ringImage ⟨3, 3⟩ = false ∧
    ∃ r, clickPress ringImage ⟨3, 3⟩ = some r :=
  ⟨by decide, by decide,
    (clickPress_leftmost_enclosing ringImage ⟨3, 3⟩ (by decide) (by decide)).2.2⟩

/-! ### The scan and the tracer on concrete images -/

/-- C1. On the ring image the click (1, 3), left of the ring and outside it, is
accepted; the scan passes over the ring's wall, reaches the free pixel (3, 3)
inside the ring and hands the contour of the hole to `fillBoundary`.  That
contour contains the pixel (3, 3), at which the trace was started, but not the
clicked pixel. -/
theorem clickPress_ring_click_outside :
    rectContains ringImage ⟨1, 3⟩ = true ∧ occupied ringImage ⟨1, 3⟩ = false ∧
    clickPress ringImage ⟨1, 3⟩ =
      some (ClickResult.fill [⟨4, 3⟩, ⟨3, 4⟩, ⟨2, 3⟩, ⟨3, 2⟩]) ∧
    insideTest ⟨3, 3⟩ [⟨4, 3⟩, ⟨3, 4⟩, ⟨2, 3⟩, ⟨3, 2⟩] = true ∧
    insideTest ⟨1, 3⟩ [⟨4, 3⟩, ⟨3, 4⟩, ⟨2, 3⟩, ⟨3, 2⟩] = false := by
  decide

theorem pushIfNewRev_reverse (out : List QPoint) (c : QPoint) :
    pushIfNewRev out.reverse c = (pushIfNew out c).reverse := by
  unfold pushIfNewRev pushIfNew
  rw [List.head?_reverse]
  split_ifs <;> simp

theorem traceLoop_eq_rev (img : QImage) (start test : QPoint) :
    ∀ (n : Nat) (cur fwd : QPoint) (out : List QPoint),
      traceLoop img start test n cur fwd out =
        ((traceLoopRev img start test n cur fwd out.reverse).1,
          (traceLoopRev img start test n cur fwd out.reverse).2.reverse) := by
  intro n
  induction n with
  | zero => intro cur fwd out; simp [traceLoop, traceLoopRev]
  | succ n ih =>
    intro cur fwd out
    rw [traceLoop, traceLoopRev]
    dsimp only
    split_ifs
    · simp
    · simp
    · simp
    · rw [ih, pushIfNewRev_reverse]

theorem traceRun_eq_rev (img : QImage) (start test : QPoint) :
    traceRun img start test =
      ((traceLoopRev img start test (img.width * img.height) test (start - test) [test]).1,
        (traceLoopRev img start test (img.width * img.height) test (start - test)
          [test]).2.reverse) := by
  unfold traceRun
  rw [traceLoop_eq_rev]
  rfl

/-- C4. On the hatched image the click (27, 2) is accepted, `start_pixel`
(27, 2) is free and `test_pixel` (28, 2) is obstructed.  The tracing loop runs
through all `width * height = 900` iterations without coming back to the
initial state, `traceBoundary` nevertheless returns true, and `clickPress`
hands the unfinished contour to `fillBoundary`. -/
theorem traceBoundary_hatch_exhausted :
    rectContains hatchImage ⟨27, 2⟩ = true ∧
    occupied hatchImage ⟨27, 2⟩ = false ∧ occupied hatchImage ⟨28, 2⟩ = true ∧
    (traceRun hatchImage ⟨27, 2⟩ ⟨28, 2⟩).1 = LoopExit.exhausted ∧
    (traceBoundary hatchImage ⟨27, 2⟩ ⟨28, 2⟩).1 = true ∧
    clickPress hatchImage ⟨27, 2⟩ =
      some (ClickResult.fill (traceBoundary hatchImage ⟨27, 2⟩ ⟨28, 2⟩).2) := by
  have hrun : (traceRun hatchImage ⟨27, 2⟩ ⟨28, 2⟩).1 = LoopExit.exhausted := by
    rw [traceRun_eq_rev]
    decide!
  have htrue : (traceBoundary hatchImage ⟨27, 2⟩ ⟨28, 2⟩).1 = true := by
    rw [traceBoundary, traceRun_eq_rev]
    decide!
  have hstep : (⟨27, 2⟩ : QPoint) + ⟨1, 0⟩ = ⟨28, 2⟩ := by decide
  refine ⟨by decide, by decide, by decide, hrun, htrue, ?_⟩
  unfold clickPress
  rw [if_neg (by decide), if_neg (by decide), scanLoop]
  dsimp only
  rw [if_pos (by decide), hstep, if_neg (by decide), if_neg (by simp [htrue])]

/-! ### The containment test -/

theorem crossing_eq_crossesRay (p vi vj : QPoint) (h : abs (vi.y - vj.y) ≤ 1) :
    crossing p vi vj = crossesRay p (vi, vj) := by
  unfold crossing crossesRay
  by_cases hs : (decide (vi.y > p.y) != decide (vj.y > p.y)) = true
  · have hd : vj.y - vi.y = 1 ∨ vj.y - vi.y = -1 := by
      rw [abs_le] at h
      simp only [bne_iff_ne, ne_eq, decide_eq_decide] at hs
      by_cases h1 : vi.y > p.y <;> by_cases h2 : vj.y > p.y
      · exact absurd (iff_of_true h1 h2) hs
      · right; omega
      · left; omega
      · exact absurd (iff_of_false h1 h2) hs
    have hq : ((vj.y : ℚ) - vi.y) = ((vj.y - vi.y : Int) : ℚ) := by push_cast; ring
    rcases hd with hd | hd
    · simp only [hq, hd, Int.tdiv_one]
      congr 1
      rw [decide_eq_decide]
      push_cast
      rw [div_one]
      constructor
      · intro hlt
        have : ((p.x : Int) : ℚ) < (((vj.x - vi.x) * (p.y - vi.y) + vi.x : Int) : ℚ) :=
          Int.cast_lt.mpr hlt
        push_cast at this
        exact this
      · intro hlt
        have : ((p.x : Int) : ℚ) < (((vj.x - vi.x) * (p.y - vi.y) + vi.x : Int) : ℚ) := by
          push_cast
          exact hlt
        exact Int.cast_lt.mp this
    · simp only [hq, hd]
      congr 1
      rw [decide_eq_decide]
      have e1 : Int.tdiv ((vj.x - vi.x) * (p.y - vi.y)) (-1) = -((vj.x - vi.x) * (p.y - vi.y)) := by
        simp
      rw [e1]
      push_cast
      rw [div_neg, div_one]
      constructor
      · intro hlt
        have : ((p.x : Int) : ℚ) < ((-((vj.x - vi.x) * (p.y - vi.y)) + vi.x : Int) : ℚ) :=
          Int.cast_lt.mpr hlt
        push_cast at this
        exact this
      · intro hlt
        have : ((p.x : Int) : ℚ) < ((-((vj.x - vi.x) * (p.y - vi.y)) + vi.x : Int) : ℚ) := by
          push_cast
          exact hlt
        exact Int.cast_lt.mp this
  · simp only [Bool.not_eq_true] at hs
    simp only [hs, Bool.false_and]

theorem insideFrom_parity (p : QPoint) :
    ∀ (l : List QPoint) (vj : QPoint) (inside : Bool),
      (∀ e ∈ edgesFrom vj l, abs (e.1.y - e.2.y) ≤ 1) →
      (insideFrom p vj l inside = true ↔
        (Odd ((edgesFrom vj l).countP (crossesRay p)) ↔ inside = false)) := by
  intro l
  induction l with
  | nil =>
    intro vj inside _
    simp [insideFrom, edgesFrom]
  | cons vi rest ih =>
    intro vj inside h
    have hhead : abs (vi.y - vj.y) ≤ 1 := h (vi, vj) (by simp [edgesFrom])
    have htail : ∀ e ∈ edgesFrom vi rest, abs (e.1.y - e.2.y) ≤ 1 := by
      intro e he
      exact h e (by simp [edgesFrom, he])
    rw [insideFrom, ih vi _ htail, crossing_eq_crossesRay p vi vj hhead]
    simp only [edgesFrom, List.countP_cons]
    by_cases hc : crossesRay p (vi, vj) = true
    · simp only [hc, if_true, Nat.odd_add_one]
      cases inside <;> simp
    · simp only [hc, if_false, Bool.false_eq_true, add_zero]

/-- C3 (amended). For every contour whose consecutive vertices, the last and
the first included, differ by at most 1 in `y`, and every integer point `p`:
if the containment loop of `traceBoundary` yields `inside = true`, then the
horizontal ray from `p` toward larger `x` crosses an odd number of edges of
the closed polygon, with the crossing points computed in exact rational
arithmetic. -/
theorem insideTest_sound_of_unit_steps (p : QPoint) (out : List QPoint)
    (hstep : ∀ e ∈ polygonEdges out, abs (e.1.y - e.2.y) ≤ 1)
    (hin : insideTest p out = true) : Odd (crossingCount p out) := by
  unfold insideTest at hin
  unfold crossingCount
  unfold polygonEdges at hstep ⊢
  cases hl : out.getLast? with
  | none => rw [hl] at hin; simp at hin
  | some last =>
    rw [hl] at hin hstep
    dsimp only at hin hstep ⊢
    exact ((insideFrom_parity p out last false hstep).mp hin).mpr rfl

theorem insideTest_sound_of_unit_steps_witness :
    (∀ e ∈ polygonEdges [⟨4, 3⟩, ⟨3, 4⟩, ⟨2, 3⟩, ⟨3, 2⟩], abs (e.1.y - e.2.y) ≤ 1) ∧
    insideTest ⟨3, 3⟩ [⟨4, 3⟩, ⟨3, 4⟩, ⟨2, 3⟩, ⟨3, 2⟩] = true ∧
    Odd (crossingCount ⟨3, 3⟩ [⟨4, 3⟩, ⟨3, 4⟩, ⟨2, 3⟩, ⟨3, 2⟩]) :=
  ⟨by decide, by decide,
    insideTest_sound_of_unit_steps ⟨3, 3⟩ [⟨4, 3⟩, ⟨3, 4⟩, ⟨2, 3⟩, ⟨3, 2⟩]
      (by decide) (by decide)⟩

/-- C3 (counterexample). For the quadrilateral (0,0), (5,0), (5,2), (1,2) and
the point (0, 1), which lies outside it (the slanted edge passes through
(1/2, 1)), the containment loop yields `inside = true`, although the ray
toward larger `x` crosses two edges and the ray toward smaller `x` none: the
truncating division moves the crossing with the slanted edge from 1/2 to 0. -/
theorem insideTest_slantedQuad_unsound :
    insideTest ⟨0, 1⟩ slantedQuad = true ∧
    ¬ Odd (crossingCount ⟨0, 1⟩ slantedQuad) ∧
    (polygonEdges slantedQuad).countP (crossesRayLeft ⟨0, 1⟩) = 0 := by
  have h : crossingCount ⟨0, 1⟩ slantedQuad = 2 := by decide!
  rw [h]
  refine ⟨by decide, by decide, by decide!⟩

/-! ### The clean-up loop on a split vector -/

theorem getElem?_at_length (pre : List PathSection) (a : PathSection)
    (r : List PathSection) : (pre ++ a :: r)[pre.length]? = some a := by
  rw [List.getElem?_append_right (le_refl _)]
  simp

theorem getD_at_length (pre : List PathSection) (a : PathSection) (r : List PathSection)
    (n : Nat) (hn : n = pre.length) : (pre ++ a :: r).getD n default = a := by
  subst hn
  rw [List.getD_eq_getElem?_getD, getElem?_at_length]
  rfl

theorem set_at_length (pre : List PathSection) (a b : PathSection) (r : List PathSection)
    (n : Nat) (hn : n = pre.length) : (pre ++ a :: r).set n b = pre ++ b :: r := by
  subst hn
  induction pre with
  | nil => rfl
  | cons c l ih => simp

theorem eraseIdx_at_length (pre : List PathSection) (a : PathSection) (r : List PathSection)
    (n : Nat) (hn : n = pre.length) : (pre ++ a :: r).eraseIdx n = pre ++ r := by
  subst hn
  induction pre with
  | nil => rfl
  | cons c l ih => simpa using ih

theorem widenAt_at_length (pre r : List PathSection) (n : Nat) (hn : n = pre.length) :
    widenAt (pre ++ r) n = pre ++ widenHead r := by
  subst hn
  unfold widenAt
  cases r with
  | nil => simp [widenHead]
  | cons a r =>
    rw [getElem?_at_length]
    exact set_at_length pre a (widen a) r pre.length rfl

theorem cleanBody_first (pl : ℚ) (cur : PathSection) (rest : List PathSection) :
    cleanBody pl (cur :: rest) 0 = (widen cur :: rest, false) := by
  simp [cleanBody, widenAt]

theorem cleanBody_at (pl : ℚ) (pre : List PathSection) (prev cur : PathSection)
    (rest : List PathSection) (s : Nat) (hs : s = pre.length + 1) :
    cleanBody pl (pre ++ prev :: cur :: rest) s =
      if mergeCondition pl cur prev then (pre ++ mergedSection cur prev :: widenHead rest, true)
      else (pre ++ prev :: widen cur :: rest, false) := by
  have e1 : pre ++ prev :: cur :: rest = (pre ++ [prev]) ++ cur :: rest := by simp
  have hs1 : s = (pre ++ [prev]).length := by simp [hs]
  have hs0 : s - 1 = pre.length := by omega
  have hcur : (pre ++ prev :: cur :: rest).getD s default = cur := by
    rw [e1]; exact getD_at_length _ _ _ _ hs1
  have hprev : (pre ++ prev :: cur :: rest).getD (s - 1) default = prev :=
    getD_at_length _ _ _ _ hs0
  unfold cleanBody
  simp only [hcur, hprev]
  have hpos : 0 < s := by omega
  by_cases hm : mergeCondition pl cur prev = true
  · rw [if_pos ⟨hpos, hm⟩, if_pos hm]
    unfold mergedSection
    by_cases hsh : shrinkPrev cur prev = true
    · rw [if_pos hsh, if_pos hsh, set_at_length _ _ _ _ _ hs0]
      have e2 : pre ++ { prev with end_clen := cur.end_clen } :: cur :: rest =
          (pre ++ [{ prev with end_clen := cur.end_clen }]) ++ cur :: rest := by simp
      rw [e2, eraseIdx_at_length _ _ _ _ (by simp [hs]), widenAt_at_length _ _ _ (by simp [hs])]
      simp
    · rw [if_neg hsh, if_neg hsh, e1, set_at_length _ _ _ _ _ hs1]
      have e3 : (pre ++ [prev]) ++ { cur with start_clen := prev.start_clen } :: rest =
          pre ++ prev :: ({ cur with start_clen := prev.start_clen } :: rest) := by simp
      rw [e3, eraseIdx_at_length _ _ _ _ hs0]
      have e4 : pre ++ { cur with start_clen := prev.start_clen } :: rest =
          (pre ++ [{ cur with start_clen := prev.start_clen }]) ++ rest := by simp
      rw [e4, widenAt_at_length _ _ _ (by simp [hs])]
      simp
  · rw [if_neg (fun h => hm h.2), if_neg hm, e1]
    have e5 : (pre ++ [prev]) ++ cur :: rest = (pre ++ [prev]) ++ (cur :: rest) := rfl
    rw [widenAt_at_length _ _ _ hs1]
    simp [widenHead]

theorem cleanLoop_done (pl : ℚ) (sections : List PathSection) (s end_ : Nat)
    (h : ¬ s < end_) : cleanLoop pl sections s end_ = sections := by
  rw [cleanLoop, dif_neg h]

theorem cleanLoop_step (pl : ℚ) (sections : List PathSection) (s end_ : Nat)
    (h : s < end_) :
    cleanLoop pl sections s end_ =
      if (cleanBody pl sections s).2 then
        cleanLoop pl (cleanBody pl sections s).1 (s - 1 + 1) (end_ - 1)
      else cleanLoop pl (cleanBody pl sections s).1 (s + 1) end_ := by
  rw [cleanLoop, dif_pos h]

theorem cleanLoop_eq_cleanZip (pl : ℚ) :
    ∀ (rest done : List PathSection) (cur : PathSection) (s end_ : Nat),
      s = done.length → end_ = done.length + 1 + rest.length →
      cleanLoop pl (done.reverse ++ cur :: rest) s end_ = cleanZip pl done cur rest := by
  intro rest
  induction rest with
  | nil =>
    intro done cur s end_ hs he
    rw [cleanLoop_step pl _ s end_ (by simp at he; omega)]
    cases done with
    | nil =>
      simp at hs he
      subst hs; subst he
      simp only [List.reverse_nil, List.nil_append, cleanBody_first, cleanZip]
      exact cleanLoop_done pl _ _ _ (by omega)
    | cons prev ds =>
      simp at hs he
      have hrev : (prev :: ds).reverse ++ [cur] = ds.reverse ++ prev :: cur :: [] := by simp
      rw [hrev, cleanBody_at pl ds.reverse prev cur [] s (by simp [hs]), cleanZip]
      by_cases hm : mergeCondition pl cur prev = true
      · simp only [hm, if_true]
        rw [cleanLoop_done pl _ _ _ (by omega)]
        simp [widenHead]
      · simp only [hm, if_false, Bool.false_eq_true]
        rw [cleanLoop_done pl _ _ _ (by omega)]
        simp
  | cons next rest ih =>
    intro done cur s end_ hs he
    rw [cleanLoop_step pl _ s end_ (by omega)]
    cases done with
    | nil =>
      simp at hs he
      subst hs
      simp only [List.reverse_nil, List.nil_append, cleanBody_first, cleanZip]
      exact ih [widen cur] next 1 end_ (by simp) (by simp [he]; omega)
    | cons prev ds =>
      simp at hs he
      have hrev : (prev :: ds).reverse ++ cur :: next :: rest =
          ds.reverse ++ prev :: cur :: next :: rest := by simp
      rw [hrev, cleanBody_at pl ds.reverse prev cur (next :: rest) s (by simp [hs]), cleanZip]
      by_cases hm : mergeCondition pl cur prev = true
      · simp only [hm, if_true, widenHead]
        have := ih (mergedSection cur prev :: ds) (widen next) (s - 1 + 1) (end_ - 1)
          (by simp; omega) (by simp; omega)
        simp only [List.reverse_cons, List.append_assoc, List.singleton_append] at this
        rw [this]
      · simp only [hm, if_false, Bool.false_eq_true]
        have := ih (widen cur :: prev :: ds) next (s + 1) end_ (by simp; omega) (by simp; omega)
        simp only [List.reverse_cons, List.append_assoc, List.singleton_append] at this
        exact this

theorem cleanSections_nil (pl : ℚ) : cleanSections pl [] = [] := by
  unfold cleanSections
  exact cleanLoop_done pl _ _ _ (by simp)

theorem cleanSections_cons (pl : ℚ) (cur : PathSection) (rest : List PathSection) :
    cleanSections pl (cur :: rest) = cleanZip pl [] cur rest := by
  unfold cleanSections
  exact cleanLoop_eq_cleanZip pl rest [] cur 0 _ rfl (by simp; omega)

/-! ### Single-precision rounding -/

theorem floatExponentFrom_ge (s : ℚ) : ∀ (n k : Nat), k ≤ floatExponentFrom n s k := by
  intro n
  induction n with
  | zero => intro k; exact le_refl k
  | succ n ih =>
    intro k
    rw [floatExponentFrom]
    split_ifs
    · exact le_trans (Nat.le_succ k) (ih (k + 1))
    · exact le_refl k

theorem floatExponentFrom_lower (s : ℚ) : ∀ (n k : Nat), k < floatExponentFrom n s k →
    ((2 ^ (floatExponentFrom n s k + 23) : Nat) : ℚ) ≤ s := by
  intro n
  induction n with
  | zero => intro k h; exact absurd h (lt_irrefl k)
  | succ n ih =>
    intro k h
    rw [floatExponentFrom] at h ⊢
    by_cases hc : ((2 ^ (k + 24) : Nat) : ℚ) ≤ s
    · rw [if_pos hc] at h ⊢
      rcases Nat.eq_or_lt_of_le (floatExponentFrom_ge s n (k + 1)) with he | hl
      · rw [← he]
        exact hc
      · exact ih (k + 1) hl
    · rw [if_neg hc] at h
      exact absurd h (lt_irrefl k)

theorem floatExponentFrom_upper (s : ℚ) : ∀ (n k : Nat), s < ((2 ^ (k + n + 24) : Nat) : ℚ) →
    s < ((2 ^ (floatExponentFrom n s k + 24) : Nat) : ℚ) := by
  intro n
  induction n with
  | zero => intro k h; exact h
  | succ n ih =>
    intro k h
    rw [floatExponentFrom]
    by_cases hc : ((2 ^ (k + 24) : Nat) : ℚ) ≤ s
    · rw [if_pos hc]
      apply ih (k + 1)
      have e : k + 1 + n + 24 = k + (n + 1) + 24 := by omega
      rw [e]
      exact h
    · rw [if_neg hc]
      exact not_le.mp hc

theorem floatExponentFrom_congr (s t : ℚ) (hst : s ≤ t) : ∀ (n k : Nat),
    t < ((2 ^ (floatExponentFrom n s k + 24) : Nat) : ℚ) →
    floatExponentFrom n t k = floatExponentFrom n s k := by
  intro n
  induction n with
  | zero => intro k _; rfl
  | succ n ih =>
    intro k h
    rw [floatExponentFrom] at h ⊢
    rw [floatExponentFrom]
    by_cases hc : ((2 ^ (k + 24) : Nat) : ℚ) ≤ s
    · rw [if_pos hc] at h ⊢
      rw [if_pos (le_trans hc hst)]
      exact ih (k + 1) h
    · rw [if_neg hc] at h ⊢
      rw [if_neg (not_le.mpr h)]

theorem roundEven_sub_le (z : ℚ) : |((roundEven z : Int) : ℚ) - z| ≤ 1 / 2 := by
  have h1 := Int.floor_le z
  have h2 := Int.lt_floor_add_one z
  rw [abs_le]
  unfold roundEven
  split_ifs with a b c
  · constructor <;> linarith
  · push_cast
    constructor <;> linarith
  · constructor <;> linarith
  · push_cast
    constructor <;> linarith

theorem roundEven_add_small (m : Int) (t : ℚ) (h0 : 0 ≤ t) (h1 : t < 1 / 2) :
    roundEven ((m : ℚ) + t) = m := by
  have hf : ⌊(m : ℚ) + t⌋ = m := by
    rw [Int.floor_eq_iff]
    constructor <;> linarith
  unfold roundEven
  rw [hf, if_pos (by linarith)]

theorem quantum_pos (x : ℚ) : 0 < quantum x := by
  unfold quantum
  positivity

theorem roundFloat_sub_le (x : ℚ) : |roundFloat x - x| ≤ quantum x / 2 := by
  have hq := quantum_pos x
  have h := roundEven_sub_le (x / quantum x)
  have e : roundFloat x - x = (((roundEven (x / quantum x) : Int) : ℚ) - x / quantum x) * quantum x := by
    unfold roundFloat
    field_simp
  rw [e, abs_mul, abs_of_pos hq]
  calc |((roundEven (x / quantum x) : Int) : ℚ) - x / quantum x| * quantum x
      ≤ 1 / 2 * quantum x := mul_le_mul_of_nonneg_right h hq.le
    _ = quantum x / 2 := by ring


theorem floatExponent_pos (x : ℚ) (h : 1 / ((2 ^ 125 : Nat) : ℚ) ≤ |x|) :
    0 < floatExponent x := by
  unfold floatExponent
  rw [floatExponentFrom]
  have hc : ((2 ^ (0 + 24) : Nat) : ℚ) ≤ |x| * ((2 ^ 149 : Nat) : ℚ) := by
    have h2 : (1 : ℚ) / ((2 ^ 125 : Nat) : ℚ) * ((2 ^ 149 : Nat) : ℚ) ≤
        |x| * ((2 ^ 149 : Nat) : ℚ) := mul_le_mul_of_nonneg_right h (by positivity)
    refine le_trans (le_of_eq ?_) h2
    norm_num
  rw [if_pos hc]
  exact floatExponentFrom_ge _ 252 1

/-- Above the subnormal numbers the spacing of the grid is at most `2^-23`
times the magnitude. -/
theorem quantum_le (x : ℚ) (h : 1 / ((2 ^ 125 : Nat) : ℚ) ≤ |x|) :
    quantum x * 8388608 ≤ |x| := by
  have hpos := floatExponent_pos x h
  have hl := floatExponentFrom_lower (|x| * ((2 ^ 149 : Nat) : ℚ)) 253 0 hpos
  change ((2 ^ (floatExponent x + 23) : Nat) : ℚ) ≤ |x| * ((2 ^ 149 : Nat) : ℚ) at hl
  unfold quantum
  rw [pow_add] at hl
  push_cast at hl ⊢
  rw [div_mul_eq_mul_div, div_le_iff₀ (by norm_num)]
  linarith

/-- The relative error of rounding above the subnormal numbers is at most
`2^-24`. -/
theorem roundFloat_le (y : ℚ) (h : 1 / ((2 ^ 125 : Nat) : ℚ) ≤ y) :
    roundFloat y ≤ y * (1 + 1 / 16777216) ∧ y * (1 - 1 / 16777216) ≤ roundFloat y := by
  have hy : 0 < y := lt_of_lt_of_le (by positivity) h
  have ha : |y| = y := abs_of_pos hy
  have hq := quantum_le y (by rw [ha]; exact h)
  rw [ha] at hq
  have he := roundFloat_sub_le y
  rw [abs_le] at he
  constructor <;> linarith [he.1, he.2]


theorem epsilon_pos : 0 < epsilon := by
  unfold epsilon
  norm_num

/-- Below 2048 the rounded sum with `epsilon` is larger than the summand. -/
theorem roundFloat_add_epsilon_gt (x : ℚ) (h0 : 0 ≤ x) (h : x + epsilon < 2048) :
    x < roundFloat (x + epsilon) := by
  have hy : 1 / ((2 ^ 125 : Nat) : ℚ) ≤ x + epsilon := by
    refine le_trans ?_ (le_add_of_nonneg_left h0)
    unfold epsilon
    norm_num
  have hpos : 0 < x + epsilon := lt_of_lt_of_le (by positivity) hy
  have ha : |x + epsilon| = x + epsilon := abs_of_pos hpos
  have hexp := floatExponent_pos (x + epsilon) (by rw [ha]; exact hy)
  have hl := floatExponentFrom_lower (|x + epsilon| * ((2 ^ 149 : Nat) : ℚ)) 253 0 hexp
  change ((2 ^ (floatExponent (x + epsilon) + 23) : Nat) : ℚ) ≤
    |x + epsilon| * ((2 ^ 149 : Nat) : ℚ) at hl
  rw [ha] at hl
  have hlt : ((2 ^ (floatExponent (x + epsilon) + 23) : Nat) : ℚ) < ((2 ^ 160 : Nat) : ℚ) := by
    refine lt_of_le_of_lt hl ?_
    have : (x + epsilon) * ((2 ^ 149 : Nat) : ℚ) < 2048 * ((2 ^ 149 : Nat) : ℚ) :=
      mul_lt_mul_of_pos_right h (by positivity)
    refine lt_of_lt_of_le this (le_of_eq ?_)
    norm_num
  have he : floatExponent (x + epsilon) + 23 < 160 :=
    (Nat.pow_lt_pow_iff_right (by norm_num)).mp (Nat.cast_lt.mp hlt)
  have hq : quantum (x + epsilon) ≤ 1 / 8192 := by
    unfold quantum
    have h2 : 2 ^ floatExponent (x + epsilon) ≤ 2 ^ 136 :=
      Nat.pow_le_pow_right (by norm_num) (by omega)
    have h3 : ((2 ^ floatExponent (x + epsilon) : Nat) : ℚ) ≤ ((2 ^ 136 : Nat) : ℚ) :=
      Nat.cast_le.mpr h2
    rw [div_le_iff₀ (by positivity)]
    refine le_trans h3 (le_of_eq ?_)
    norm_num
  have herr := roundFloat_sub_le (x + epsilon)
  rw [abs_le] at herr
  have heps : (1 : ℚ) / 16384 < epsilon := by
    unfold epsilon
    norm_num
  linarith [herr.1]

/-- From 2048 on the rounded sum of a `float` with `epsilon` is the `float`
itself. -/
theorem roundFloat_add_epsilon_eq (x : ℚ) (hf : IsFloat x) (h : 2048 ≤ x) :
    roundFloat (x + epsilon) = x := by
  obtain ⟨hr, hb⟩ := hf
  have hx : 0 < x := lt_of_lt_of_le (by norm_num) h
  have ha : |x| = x := abs_of_pos hx
  have hep := epsilon_pos
  have ha2 : |x + epsilon| = x + epsilon := abs_of_pos (by linarith)
  rw [ha] at hb
  -- the exponent of `x`
  have hu := floatExponentFrom_upper (|x| * ((2 ^ 149 : Nat) : ℚ)) 253 0 (by
    rw [ha]
    have : x * ((2 ^ 149 : Nat) : ℚ) < ((2 ^ 128 : Nat) : ℚ) * ((2 ^ 149 : Nat) : ℚ) :=
      mul_lt_mul_of_pos_right hb (by positivity)
    refine lt_of_lt_of_le this (le_of_eq ?_)
    norm_num)
  change |x| * ((2 ^ 149 : Nat) : ℚ) < ((2 ^ (floatExponent x + 24) : Nat) : ℚ) at hu
  rw [ha] at hu
  have hgt : ((2 ^ 160 : Nat) : ℚ) < ((2 ^ (floatExponent x + 24) : Nat) : ℚ) := by
    refine lt_of_le_of_lt ?_ hu
    have : 2048 * ((2 ^ 149 : Nat) : ℚ) ≤ x * ((2 ^ 149 : Nat) : ℚ) :=
      mul_le_mul_of_nonneg_right h (by positivity)
    refine le_trans (le_of_eq ?_) this
    norm_num
  have he : 160 < floatExponent x + 24 :=
    (Nat.pow_lt_pow_iff_right (by norm_num)).mp (Nat.cast_lt.mp hgt)
  have hq : 1 / 4096 ≤ quantum x := by
    unfold quantum
    have h2 : 2 ^ 137 ≤ 2 ^ floatExponent x := Nat.pow_le_pow_right (by norm_num) (by omega)
    have h3 : ((2 ^ 137 : Nat) : ℚ) ≤ ((2 ^ floatExponent x : Nat) : ℚ) := Nat.cast_le.mpr h2
    rw [le_div_iff₀ (by positivity)]
    refine le_trans (le_of_eq ?_) h3
    norm_num
  have hqpos := quantum_pos x
  -- `x` is a multiple `m` of the spacing, with `m < 2^24`
  have hxq : x < 16777216 * quantum x := by
    unfold quantum
    rw [pow_add] at hu
    push_cast at hu ⊢
    rw [mul_div_assoc', lt_div_iff₀ (by norm_num)]
    linarith
  obtain ⟨m, hm⟩ : ∃ m : Int, (m : ℚ) * quantum x = x := ⟨_, hr⟩
  have hmlt : m < 16777216 := by
    by_contra hc
    have hc2 : (16777216 : ℚ) ≤ (m : ℚ) := by
      exact_mod_cast not_lt.mp hc
    have := mul_le_mul_of_nonneg_right hc2 hqpos.le
    linarith
  have hmle : (m : ℚ) ≤ 16777215 := by
    exact_mod_cast Int.lt_add_one_iff.mp hmlt
  have hsum : x + epsilon < 16777216 * quantum x := by
    have := mul_le_mul_of_nonneg_right hmle hqpos.le
    have heps : epsilon < 1 / 4096 := by
      unfold epsilon
      norm_num
    linarith
  -- the sum lies in the same binade
  have hfe : floatExponent x = floatExponentFrom 253 (x * ((2 ^ 149 : Nat) : ℚ)) 0 := by
    unfold floatExponent
    rw [ha]
  have hq2 : quantum x * ((2 ^ 149 : Nat) : ℚ) = ((2 ^ floatExponent x : Nat) : ℚ) := by
    unfold quantum
    field_simp
  have key : (x + epsilon) * ((2 ^ 149 : Nat) : ℚ) <
      ((2 ^ (floatExponent x + 24) : Nat) : ℚ) := by
    have := mul_lt_mul_of_pos_right hsum (show (0 : ℚ) < ((2 ^ 149 : Nat) : ℚ) by positivity)
    rw [mul_assoc, hq2] at this
    refine lt_of_lt_of_le this (le_of_eq ?_)
    rw [pow_add]
    push_cast
    ring
  have hexp : floatExponent (x + epsilon) = floatExponent x := by
    rw [hfe] at key ⊢
    unfold floatExponent
    rw [ha2]
    exact floatExponentFrom_congr _ _
      (mul_le_mul_of_nonneg_right (by linarith) (by positivity)) 253 0 key
  have hqe : quantum (x + epsilon) = quantum x := by
    unfold quantum
    rw [hexp]
  have hxm : x / quantum x = (m : ℚ) := by
    rw [div_eq_iff hqpos.ne']
    exact hm.symm
  unfold roundFloat
  rw [hqe, add_div, hxm, roundEven_add_small m _ (div_nonneg hep.le hqpos.le) (by
    rw [div_lt_iff₀ hqpos]
    have heps : epsilon < 1 / 8192 := by
      unfold epsilon
      norm_num
    linarith)]
  exact hm


/-- The largest `float` below 2048 is `2048 - 2^-13`. -/
theorem float_below_2048 (x : ℚ) (hf : IsFloat x) (h : x < 2048) :
    x + epsilon < 2048 := by
  have heps : epsilon < 1 / 8192 := by
    unfold epsilon
    norm_num
  by_cases h1 : x < 1024
  · linarith
  · have h1 : 1024 ≤ x := not_lt.mp h1
    obtain ⟨hr, hb⟩ := hf
    have hx : 0 < x := lt_of_lt_of_le (by norm_num) h1
    have ha : |x| = x := abs_of_pos hx
    rw [ha] at hb
    have hu := floatExponentFrom_upper (|x| * ((2 ^ 149 : Nat) : ℚ)) 253 0 (by
      rw [ha]
      have : x * ((2 ^ 149 : Nat) : ℚ) < ((2 ^ 128 : Nat) : ℚ) * ((2 ^ 149 : Nat) : ℚ) :=
        mul_lt_mul_of_pos_right hb (by positivity)
      refine lt_of_lt_of_le this (le_of_eq ?_)
      norm_num)
    change |x| * ((2 ^ 149 : Nat) : ℚ) < ((2 ^ (floatExponent x + 24) : Nat) : ℚ) at hu
    rw [ha] at hu
    have hgt : ((2 ^ 159 : Nat) : ℚ) < ((2 ^ (floatExponent x + 24) : Nat) : ℚ) := by
      refine lt_of_le_of_lt ?_ hu
      have : 1024 * ((2 ^ 149 : Nat) : ℚ) ≤ x * ((2 ^ 149 : Nat) : ℚ) :=
        mul_le_mul_of_nonneg_right h1 (by positivity)
      refine le_trans (le_of_eq ?_) this
      norm_num
    have he : 159 < floatExponent x + 24 :=
      (Nat.pow_lt_pow_iff_right (by norm_num)).mp (Nat.cast_lt.mp hgt)
    have hexp := floatExponent_pos x (by
      rw [ha]
      refine le_trans ?_ h1
      norm_num)
    have hl := floatExponentFrom_lower (|x| * ((2 ^ 149 : Nat) : ℚ)) 253 0 hexp
    change ((2 ^ (floatExponent x + 23) : Nat) : ℚ) ≤ |x| * ((2 ^ 149 : Nat) : ℚ) at hl
    rw [ha] at hl
    have hlt : ((2 ^ (floatExponent x + 23) : Nat) : ℚ) < ((2 ^ 160 : Nat) : ℚ) := by
      refine lt_of_le_of_lt hl ?_
      have : x * ((2 ^ 149 : Nat) : ℚ) < 2048 * ((2 ^ 149 : Nat) : ℚ) :=
        mul_lt_mul_of_pos_right h (by positivity)
      refine lt_of_lt_of_le this (le_of_eq ?_)
      norm_num
    have he2 : floatExponent x + 23 < 160 :=
      (Nat.pow_lt_pow_iff_right (by norm_num)).mp (Nat.cast_lt.mp hlt)
    have he3 : floatExponent x = 136 := by omega
    have hq : quantum x = 1 / 8192 := by
      unfold quantum
      rw [he3]
      norm_num
    obtain ⟨m, hm⟩ : ∃ m : Int, (m : ℚ) * quantum x = x := ⟨_, hr⟩
    rw [hq] at hm
    have hmlt : m < 16777216 := by
      by_contra hc
      have hc2 : (16777216 : ℚ) ≤ (m : ℚ) := by
        exact_mod_cast not_lt.mp hc
      linarith
    have hmle : (m : ℚ) ≤ 16777215 := by
      exact_mod_cast Int.lt_add_one_iff.mp hmlt
    linarith

/-- Line 363 leaves a nonnegative `float` as it is exactly from 2048 on. -/
theorem roundFloat_add_epsilon_eq_iff (x : ℚ) (hf : IsFloat x) (h0 : 0 ≤ x) :
    roundFloat (x + epsilon) = x ↔ 2048 ≤ x := by
  constructor
  · intro h
    by_contra hc
    have := roundFloat_add_epsilon_gt x h0 (float_below_2048 x hf (not_le.mp hc))
    rw [h] at this
    exact lt_irrefl x this
  · exact roundFloat_add_epsilon_eq x hf

theorem isFloat_2048 : IsFloat 2048 := by
  constructor
  · decide!
  · norm_num

/-! ### Fixed points of the Section Cleaner -/

theorem widen_eq_self_iff (sec : PathSection) :
    widen sec = sec ↔
      ¬ (sec.end_clen = sec.start_clen ∧
        roundFloat (sec.end_clen + epsilon) ≠ sec.end_clen) := by
  unfold widen
  by_cases hz : sec.end_clen = sec.start_clen
  · rw [if_pos hz]
    constructor
    · rintro h ⟨_, hne⟩
      exact hne (congrArg PathSection.end_clen h)
    · intro h
      have hr : roundFloat (sec.end_clen + epsilon) = sec.end_clen := by
        by_contra hne
        exact h ⟨hz, hne⟩
      rw [hr]
  · rw [if_neg hz]
    simp [hz]

theorem cleanZip_untouched (pl : ℚ) :
    ∀ (rest done : List PathSection) (prev cur : PathSection),
      cleanZip pl (prev :: done) cur rest = done.reverse ++ cleanZip pl [prev] cur rest := by
  intro rest
  induction rest with
  | nil =>
    intro done prev cur
    simp only [cleanZip]
    split_ifs <;> simp
  | cons next rest ih =>
    intro done prev cur
    simp only [cleanZip]
    split_ifs
    · exact ih done _ _
    · rw [ih (prev :: done), ih [prev]]
      simp

theorem cleanZip_length_le (pl : ℚ) :
    ∀ (rest done : List PathSection) (cur : PathSection),
      (cleanZip pl done cur rest).length ≤ done.length + 1 + rest.length := by
  intro rest
  induction rest with
  | nil =>
    intro done cur
    cases done with
    | nil => simp [cleanZip]
    | cons prev ds =>
      simp only [cleanZip]
      split_ifs <;> simp
  | cons next rest ih =>
    intro done cur
    cases done with
    | nil =>
      simp only [cleanZip]
      have := ih [widen cur] next
      simp at this ⊢
      omega
    | cons prev ds =>
      simp only [cleanZip]
      split_ifs
      · have := ih (mergedSection cur prev :: ds) (widen next)
        simp at this ⊢
        omega
      · have := ih (widen cur :: prev :: ds) next
        simp at this ⊢
        omega

/-- The loop leaves `prev :: cur :: rest` as it is exactly when `cur` does not
merge with `prev` and `cur :: rest` needs no cleaning. -/
theorem cleanZip_fixed_iff (pl : ℚ) :
    ∀ (rest : List PathSection) (prev cur : PathSection),
      cleanZip pl [prev] cur rest = prev :: cur :: rest ↔
        mergeCondition pl cur prev = false ∧ Stable pl (cur :: rest) := by
  intro rest
  induction rest with
  | nil =>
    intro prev cur
    simp only [cleanZip]
    by_cases hm : mergeCondition pl cur prev = true
    · simp [hm]
    · simp only [hm, if_false, Bool.false_eq_true]
      simp [Stable, widen_eq_self_iff, hm]
  | cons next rest ih =>
    intro prev cur
    simp only [cleanZip]
    by_cases hm : mergeCondition pl cur prev = true
    · rw [if_pos hm]
      constructor
      · intro h
        have := cleanZip_length_le pl rest [mergedSection cur prev] (widen next)
        rw [h] at this
        simp at this
        omega
      · intro h
        rw [hm] at h
        simp at h
    · rw [if_neg hm, cleanZip_untouched pl rest [prev] (widen cur) next]
      simp only [List.reverse_cons, List.reverse_nil, List.nil_append, List.singleton_append,
        List.cons.injEq, true_and]
      have hm' : mergeCondition pl cur prev = false := by simpa using hm
      constructor
      · intro h
        have hw : widen cur = cur := by
          by_cases hn : mergeCondition pl next (widen cur) = true
          · have hl := cleanZip_length_le pl rest [widen cur] next
            cases rest with
            | nil =>
              simp only [cleanZip, hn, if_true] at h
              simp at h
            | cons n2 r2 =>
              simp only [cleanZip, hn, if_true] at h
              have hl2 := cleanZip_length_le pl r2 [mergedSection next (widen cur)] (widen n2)
              rw [h] at hl2
              simp at hl2
              omega
          · cases rest with
            | nil =>
              simp only [cleanZip, hn, if_false, Bool.false_eq_true] at h
              simp at h
              exact h.1
            | cons n2 r2 =>
              simp only [cleanZip, hn, if_false, Bool.false_eq_true] at h
              rw [cleanZip_untouched pl r2 [widen cur] (widen next) n2] at h
              simp at h
              exact h.1
        rw [hw] at h
        have := (ih cur next).mp h
        refine ⟨hm', ?_, ?_⟩
        · intro sec hsec
          rcases List.mem_cons.mp hsec with h1 | h1
          · rw [h1]; exact (widen_eq_self_iff cur).mp hw
          · exact this.2.1 sec h1
        · exact List.Chain'.cons this.1 this.2.2
      · rintro ⟨_, hs1, hs2⟩
        have hw : widen cur = cur := (widen_eq_self_iff cur).mpr (hs1 cur (by simp))
        rw [hw]
        apply (ih cur next).mpr
        rw [List.chain'_cons] at hs2
        exact ⟨hs2.1, fun sec hsec => hs1 sec (List.mem_cons_of_mem _ hsec), hs2.2⟩

/-- C2 (amended). For every list of sections and every `pixel_length`,
cleaning the cleaned list again changes nothing if and only if the cleaned
list is stable: it has no section that lines 362-363 change (a section with
`start_clen == end_clen` whose `float` sum `end_clen + epsilon` differs from
`end_clen`) and no section that satisfies the merge condition with the section
before it.  Lines 362-363 leave a section with `start_clen == end_clen`, a
nonnegative `float`, as it is exactly when that value is at least 2048, where
the sum rounds back to `end_clen`. -/
theorem cleanSections_idempotent_iff (pl : ℚ) (sections : List PathSection) :
    (cleanSections pl (cleanSections pl sections) = cleanSections pl sections ↔
      Stable pl (cleanSections pl sections)) ∧
    ∀ sec : PathSection, sec.end_clen = sec.start_clen → IsFloat sec.end_clen →
      0 ≤ sec.end_clen → (widen sec = sec ↔ 2048 ≤ sec.end_clen) := by
  refine ⟨?_, fun sec hz hf h0 => ?_⟩
  swap
  · rw [widen_eq_self_iff, ← roundFloat_add_epsilon_eq_iff sec.end_clen hf h0]
    constructor
    · intro h
      by_contra hne
      exact h ⟨hz, hne⟩
    · rintro h ⟨_, hne⟩
      exact hne h
  generalize cleanSections pl sections = sections
  cases sections with
  | nil => simp [cleanSections_nil, Stable]
  | cons cur rest =>
    rw [cleanSections_cons]
    cases rest with
    | nil => simp [cleanZip, Stable, widen_eq_self_iff]
    | cons next rest =>
      simp only [cleanZip]
      constructor
      · intro h
        have hw : widen cur = cur := by
          by_cases hn : mergeCondition pl next (widen cur) = true
          · cases rest with
            | nil =>
              simp only [cleanZip, hn, if_true] at h
              simp at h
            | cons n2 r2 =>
              simp only [cleanZip, hn, if_true] at h
              have hl2 := cleanZip_length_le pl r2 [mergedSection next (widen cur)] (widen n2)
              rw [h] at hl2
              simp at hl2
              omega
          · cases rest with
            | nil =>
              simp only [cleanZip, hn, if_false, Bool.false_eq_true] at h
              simp at h
              exact h.1
            | cons n2 r2 =>
              simp only [cleanZip, hn, if_false, Bool.false_eq_true] at h
              rw [cleanZip_untouched pl r2 [widen cur] (widen next) n2] at h
              simp at h
              exact h.1
        rw [hw] at h
        have := (cleanZip_fixed_iff pl rest cur next).mp h
        refine ⟨?_, ?_⟩
        · intro sec hsec
          rcases List.mem_cons.mp hsec with h1 | h1
          · rw [h1]; exact (widen_eq_self_iff cur).mp hw
          · exact this.2.1 sec h1
        · exact List.Chain'.cons this.1 this.2.2
      · rintro ⟨hs1, hs2⟩
        have hw : widen cur = cur := (widen_eq_self_iff cur).mpr (hs1 cur (by simp))
        rw [hw]
        apply (cleanZip_fixed_iff pl rest cur next).mpr
        rw [List.chain'_cons] at hs2
        exact ⟨hs2.1, fun sec hsec => hs1 sec (List.mem_cons_of_mem _ hsec), hs2.2⟩

theorem cleanSections_idempotent_iff_witness :
    Stable 1 (cleanSections 1 [⟨0, 0, 10⟩, ⟨1, 5, 7⟩]) ∧
    cleanSections 1 (cleanSections 1 [⟨0, 0, 10⟩, ⟨1, 5, 7⟩]) =
      cleanSections 1 [⟨0, 0, 10⟩, ⟨1, 5, 7⟩] ∧
    IsFloat 2048 ∧ widen ⟨0, 2048, 2048⟩ = ⟨0, 2048, 2048⟩ := by
  have e : cleanSections 1 [⟨0, 0, 10⟩, ⟨1, 5, 7⟩] = [⟨0, 0, 10⟩, ⟨1, 5, 7⟩] := by
    rw [cleanSections_cons]
    decide!
  have h : Stable 1 (cleanSections 1 [⟨0, 0, 10⟩, ⟨1, 5, 7⟩]) := by
    rw [e]
    refine ⟨by decide!, ?_⟩
    rw [List.chain'_cons]
    exact ⟨by decide!, List.chain'_singleton _⟩
  exact ⟨h, (cleanSections_idempotent_iff 1 [⟨0, 0, 10⟩, ⟨1, 5, 7⟩]).1.mpr h, isFloat_2048,
    ((cleanSections_idempotent_iff 1 []).2 ⟨0, 2048, 2048⟩ rfl isFloat_2048
      (by norm_num)).mpr (le_refl _)⟩

/-- C2 (counterexample). The builder makes `backtrackSections` of the samples
`backtrackSamples`.  With `pixel_length = 1`, cleaning them merges the second
and third section into one running from 9 back to 5 and leaves it next to the
first section, with which it satisfies the merge condition; cleaning the
result again merges these two.  So cleaning twice differs from cleaning
once. -/
theorem cleanSections_not_idempotent :
    (0 : ℚ) < 1 ∧
    buildSections (sampledEnv backtrackSamples) (rowPixels 13) = some backtrackSections ∧
    cleanSections 1 backtrackSections = [⟨0, 0, 10⟩, ⟨0, 9, 5⟩, ⟨1, 5, 7⟩] ∧
    mergeCondition 1 ⟨0, 9, 5⟩ ⟨0, 0, 10⟩ = true ∧
    cleanSections 1 (cleanSections 1 backtrackSections) = [⟨0, 0, 5⟩, ⟨1, 5, 7⟩] ∧
    cleanSections 1 (cleanSections 1 backtrackSections) ≠ cleanSections 1 backtrackSections := by
  have h1 : cleanSections 1 backtrackSections = [⟨0, 0, 10⟩, ⟨0, 9, 5⟩, ⟨1, 5, 7⟩] := by
    unfold backtrackSections
    rw [cleanSections_cons]
    decide!
  have h2 : cleanSections 1 [⟨0, 0, 10⟩, ⟨0, 9, 5⟩, ⟨1, 5, 7⟩] = [⟨0, 0, 5⟩, ⟨1, 5, 7⟩] := by
    rw [cleanSections_cons]
    decide!
  refine ⟨by norm_num, by decide!, h1, by decide!, ?_, ?_⟩
  · rw [h1, h2]
  · rw [h1, h2]
    decide!

/-- C8. The builder makes `thereAndBackSections` of the samples
`thereAndBackSamples`.  With `pixel_length = 1`, cleaning them merges the
first two sections into one with `start_clen = end_clen = 0` and leaves it
that way: the cleaned list contains a section with an empty range. -/
theorem cleanSections_leaves_empty_range :
    buildSections (sampledEnv thereAndBackSamples) (rowPixels 8) =
      some thereAndBackSections ∧
    cleanSections 1 thereAndBackSections = [⟨0, 0, 0⟩, ⟨1, 5, 7⟩] := by
  refine ⟨by decide!, ?_⟩
  unfold thereAndBackSections
  rw [cleanSections_cons]
  decide!

/-! ### The section builder -/

theorem chain_of_all_eq (R : ℚ → ℚ → Prop) (hR : ∀ a, R a a) (v : ℚ) :
    ∀ l : List ℚ, (∀ c ∈ l, c = v) → List.Chain' R l := by
  intro l
  induction l with
  | nil => intro _; exact List.chain'_nil
  | cons a l ih =>
    intro h
    cases l with
    | nil => exact List.chain'_singleton a
    | cons b l =>
      rw [List.chain'_cons]
      refine ⟨?_, ih (fun c hc => h c (List.mem_cons_of_mem _ hc))⟩
      rw [h a (by simp), h b (by simp)]
      exact hR v

theorem RunInv.runOf {sec : PathSection} {run : List (Nat × ℚ)} (h : RunInv sec run) :
    RunOf sec run := by
  obtain ⟨h1, h2, h3, h4, h5, h6⟩ := h
  refine ⟨h1, h2, h3, ?_⟩
  rcases lt_trichotomy sec.start_clen sec.end_clen with hlt | heq | hgt
  · exact Or.inl (h4 hlt)
  · exact Or.inl (chain_of_all_eq _ (fun a => le_refl a) _ _ (h6 heq))
  · exact Or.inr (h5 hgt)

theorem runInv_new (obj : Nat) (clen : ℚ) : RunInv (newSection obj clen) [(obj, clen)] := by
  simp [RunInv, newSection]

theorem runInv_extend (back : PathSection) (run : List (Nat × ℚ)) (clen : ℚ)
    (h : RunInv back run)
    (hdir : ¬ (back.end_clen - back.start_clen) * (clen - back.end_clen) < 0) :
    RunInv { back with end_clen := clen } (run ++ [(back.object, clen)]) := by
  obtain ⟨h1, h2, h3, h4, h5, h6⟩ := h
  have hne : run.map Prod.snd ≠ [] := by
    intro he
    rw [he] at h2
    simp at h2
  have hlast : ∀ x ∈ (run.map Prod.snd).getLast?, x = back.end_clen := by
    intro x hx
    rw [h3] at hx
    simpa using hx.symm
  rw [not_lt] at hdir
  refine ⟨?_, ?_, ?_, ?_, ?_, ?_⟩
  · intro s hs
    rcases List.mem_append.mp hs with hs | hs
    · exact h1 s hs
    · simp at hs
      rw [hs]
  · rw [List.map_append, List.head?_append_of_ne_nil _ hne]
    exact h2
  · simp
  · intro hlt
    dsimp only at hlt
    rw [List.map_append]
    rcases lt_trichotomy back.start_clen back.end_clen with hc | hc | hc
    · have hstep : back.end_clen ≤ clen := by
        by_contra hcon
        rw [not_le] at hcon
        have : (back.end_clen - back.start_clen) * (clen - back.end_clen) < 0 :=
          mul_neg_of_pos_of_neg (by linarith) (by linarith)
        linarith
      refine List.Chain'.append (h4 hc) (List.chain'_singleton _) ?_
      intro x hx y hy
      simp at hy
      rw [hlast x hx, ← hy]
      exact hstep
    · refine List.Chain'.append (chain_of_all_eq _ (fun a => le_refl a) _ _ (h6 hc))
        (List.chain'_singleton _) ?_
      intro x hx y hy
      simp at hy
      rw [hlast x hx, ← hy, ← hc]
      exact le_of_lt hlt
    · exfalso
      have hstep : clen ≤ back.end_clen := by
        by_contra hcon
        rw [not_le] at hcon
        have : (back.end_clen - back.start_clen) * (clen - back.end_clen) < 0 :=
          mul_neg_of_neg_of_pos (by linarith) (by linarith)
        linarith
      linarith
  · intro hgt
    dsimp only at hgt
    rw [List.map_append]
    rcases lt_trichotomy back.start_clen back.end_clen with hc | hc | hc
    · exfalso
      have hstep : back.end_clen ≤ clen := by
        by_contra hcon
        rw [not_le] at hcon
        have : (back.end_clen - back.start_clen) * (clen - back.end_clen) < 0 :=
          mul_neg_of_pos_of_neg (by linarith) (by linarith)
        linarith
      linarith
    · refine List.Chain'.append
        (chain_of_all_eq (fun a b : ℚ => b ≤ a) (fun a => le_refl a) _ _ (h6 hc))
        (List.chain'_singleton _) ?_
      intro x hx y hy
      simp at hy
      rw [hlast x hx, ← hy, ← hc]
      exact le_of_lt hgt
    · have hstep : clen ≤ back.end_clen := by
        by_contra hcon
        rw [not_le] at hcon
        have : (back.end_clen - back.start_clen) * (clen - back.end_clen) < 0 :=
          mul_neg_of_neg_of_pos (by linarith) (by linarith)
        linarith
      refine List.Chain'.append (h5 hc) (List.chain'_singleton _) ?_
      intro x hx y hy
      simp at hy
      rw [hlast x hx, ← hy]
      exact hstep
  · intro heq
    dsimp only at heq
    intro c hc
    rw [List.map_append] at hc
    rcases List.mem_append.mp hc with hc | hc
    · rcases lt_trichotomy back.start_clen back.end_clen with hd | hd | hd
      · exfalso
        have : (back.end_clen - back.start_clen) * (clen - back.end_clen) < 0 :=
          mul_neg_of_pos_of_neg (by linarith) (by linarith)
        linarith
      · exact h6 hd c hc
      · exfalso
        have : (back.end_clen - back.start_clen) * (clen - back.end_clen) < 0 :=
          mul_neg_of_neg_of_pos (by linarith) (by linarith)
        linarith
    · simp at hc
      rw [hc]
      exact heq.symm

theorem builder_open_new (sections : List PathSection) (runsRev : List (List (Nat × ℚ)))
    (obj : Nat) (clen : ℚ) (hinv : List.Forall₂ RunInv sections.reverse runsRev) :
    List.Forall₂ RunInv (sections ++ [newSection obj clen]).reverse
        ([(obj, clen)] :: runsRev) ∧
      ([(obj, clen)] :: runsRev).reverse.flatten = runsRev.reverse.flatten ++ [(obj, clen)] := by
  constructor
  · rw [List.reverse_append]
    exact List.Forall₂.cons (runInv_new obj clen) hinv
  · simp

theorem builderStep_spec (env : SnapEnv) (boundary : List QPoint) (b : Nat) (pix : QPoint)
    (sections : List PathSection) (runsRev : List (List (Nat × ℚ)))
    (hinv : List.Forall₂ RunInv sections.reverse runsRev)
    (hprev : sections ≠ [] → ∃ q, prevPixel boundary b = some q) :
    ∃ sections' runsRev', builderStep env boundary b pix sections = some sections' ∧
      List.Forall₂ RunInv sections'.reverse runsRev' ∧
      runsRev'.reverse.flatten = runsRev.reverse.flatten ++ (env.snap pix).toList := by
  unfold builderStep
  cases hsnap : env.snap pix with
  | none => exact ⟨sections, runsRev, rfl, hinv, by simp⟩
  | some sample =>
    obtain ⟨obj, clen⟩ := sample
    dsimp only
    cases hl : sections.getLast? with
    | none =>
      exact ⟨_, [(obj, clen)] :: runsRev, rfl, builder_open_new sections runsRev obj clen hinv⟩
    | some back =>
      dsimp only
      by_cases h1 : back.object ≠ obj
      · rw [if_pos h1]
        exact ⟨_, [(obj, clen)] :: runsRev, rfl, builder_open_new sections runsRev obj clen hinv⟩
      · rw [if_neg h1]
        by_cases h2 : (back.end_clen - back.start_clen) * (clen - back.end_clen) < 0
        · rw [if_pos h2]
          exact ⟨_, [(obj, clen)] :: runsRev, rfl,
            builder_open_new sections runsRev obj clen hinv⟩
        · rw [if_neg h2]
          have hne : sections ≠ [] := by
            intro he
            rw [he] at hl
            simp at hl
          obtain ⟨q, hq⟩ := hprev hne
          rw [hq]
          dsimp only
          by_cases h3 : abs (clen - back.end_clen) > 5 * env.dist pix q
          · rw [if_pos h3]
            exact ⟨_, [(obj, clen)] :: runsRev, rfl,
              builder_open_new sections runsRev obj clen hinv⟩
          · rw [if_neg h3]
            obtain ⟨init, hinit⟩ := List.getLast?_eq_some_iff.mp hl
            subst hinit
            rw [List.reverse_append] at hinv
            simp only [List.reverse_cons, List.reverse_nil, List.nil_append,
              List.singleton_append] at hinv
            cases hinv with
            | cons hb hrest =>
              rename_i rl ri
              have hobj : back.object = obj := not_not.mp h1
              refine ⟨_, (rl ++ [(obj, clen)]) :: ri, rfl, ?_, ?_⟩
              · rw [List.dropLast_concat, List.reverse_append]
                simp only [List.reverse_cons, List.reverse_nil, List.nil_append,
                  List.singleton_append]
                refine List.Forall₂.cons ?_ hrest
                rw [← hobj]
                exact runInv_extend back rl clen hb h2
              · simp

theorem builderLoop_spec (env : SnapEnv) (boundary : List QPoint) :
    ∀ (rest : List QPoint) (b : Nat) (sections : List PathSection)
      (runsRev : List (List (Nat × ℚ))),
      b + rest.length = boundary.length → (b = 0 → sections = []) →
      List.Forall₂ RunInv sections.reverse runsRev →
      ∃ result runs, builderLoop env boundary b rest sections = some result ∧
        List.Forall₂ RunInv result runs ∧
        runs.flatten = runsRev.reverse.flatten ++ rest.filterMap env.snap := by
  intro rest
  induction rest with
  | nil =>
    intro b sections runsRev _ _ hinv
    refine ⟨sections, runsRev.reverse, rfl, ?_, by simp⟩
    rw [← List.forall₂_reverse_iff, List.reverse_reverse]
    exact hinv
  | cons pix rest ih =>
    intro b sections runsRev hlen hzero hinv
    have hprev : sections ≠ [] → ∃ q, prevPixel boundary b = some q := by
      intro hne
      have hb : b ≠ 0 := fun h => hne (hzero h)
      unfold prevPixel
      rw [if_neg hb]
      have hlt : b - 1 < boundary.length := by
        simp at hlen
        omega
      exact ⟨boundary[b - 1], List.getElem?_eq_getElem hlt⟩
    obtain ⟨s1, r1, e1, e2, e3⟩ := builderStep_spec env boundary b pix sections runsRev hinv hprev
    obtain ⟨result, runs, f1, f2, f3⟩ := ih (b + 1) s1 r1 (by simp at hlen ⊢; omega)
      (fun h => absurd h (Nat.succ_ne_zero b)) e2
    refine ⟨result, runs, ?_, f2, ?_⟩
    · rw [builderLoop, e1]
      exact f1
    · rw [f3, e3, List.filterMap_cons]
      cases env.snap pix <;> simp

theorem buildSections_runs (env : SnapEnv) (boundary : List QPoint) :
    ∃ sections runs, buildSections env boundary = some sections ∧
      runs.flatten = keptSamples env boundary ∧ List.Forall₂ RunOf sections runs := by
  obtain ⟨result, runs, h1, h2, h3⟩ :=
    builderLoop_spec env boundary boundary 0 [] [] (by simp) (fun _ => rfl) List.Forall₂.nil
  refine ⟨result, runs, h1, ?_, List.Forall₂.imp (fun _ _ h => h.runOf) h2⟩
  rw [h3]
  simp [keptSamples]

/-- C6. For every contour and every snapping environment the section builder
returns a list of sections, and the kept samples split into consecutive runs,
one per section in order, such that every run is not empty, all its samples
belong to the section's object, its first arc length is the section's
`start_clen`, its last one is the section's `end_clen`, and its arc lengths
are all non-decreasing or all non-increasing. -/
theorem buildSections_runs_monotone (env : SnapEnv) (boundary : List QPoint) :
    ∃ sections runs, buildSections env boundary = some sections ∧
      runs.flatten = keptSamples env boundary ∧ List.Forall₂ RunOf sections runs := by
  obtain ⟨result, runs, hsome, hinv, hflat⟩ :=
    builderLoop_spec env boundary boundary 0 [] [] (by simp) (fun _ => rfl) List.Forall₂.nil
  refine ⟨result, runs, hsome, ?_, List.Forall₂.imp (fun _ _ h => h.runOf) hinv⟩
  rw [hflat]
  simp [keptSamples]

theorem buildSections_runs_monotone_witness :
    buildSections lineEnv [⟨1, 0⟩, ⟨2, 0⟩, ⟨1, 0⟩] = some [⟨0, 1, 2⟩, ⟨0, 1, 1⟩] ∧
    ∃ runs, runs.flatten = keptSamples lineEnv [⟨1, 0⟩, ⟨2, 0⟩, ⟨1, 0⟩] ∧
      List.Forall₂ RunOf [⟨0, 1, 2⟩, ⟨0, 1, 1⟩] runs := by
  obtain ⟨sections, runs, h1, h2, h3⟩ :=
    buildSections_runs_monotone lineEnv [⟨1, 0⟩, ⟨2, 0⟩, ⟨1, 0⟩]
  have e : buildSections lineEnv [⟨1, 0⟩, ⟨2, 0⟩, ⟨1, 0⟩] = some [⟨0, 1, 2⟩, ⟨0, 1, 1⟩] := by
    decide!
  rw [e] at h1
  injection h1 with h1
  subst h1
  exact ⟨e, runs, h2, h3⟩

/-! ### `fillBoundary` and the map -/

theorem buildSections_of_no_sample (env : SnapEnv) (boundary : List QPoint)
    (h : keptSamples env boundary = []) : buildSections env boundary = some [] := by
  obtain ⟨sections, runs, h1, h2, h3⟩ := buildSections_runs env boundary
  rw [h1]
  cases h3 with
  | nil => rfl
  | cons hr _ =>
    rename_i sec run secs rs _
    exfalso
    rw [h] at h2
    have hrun : run = [] := by
      simp at h2
      exact h2.1
    have := hr.2.1
    rw [hrun] at this
    simp at this

/-- C9. `fillBoundary` returns a flag and a map state.  When it returns false
the map state is the one it was called with; when it returns true the map
state is the one `addFillObject` produces, in which the objects are the old
ones followed by exactly one new object.
When no contour pixel snaps to a path it returns false. -/
theorem fillBoundary_all_or_nothing (env : SnapEnv) (ops : PathOps) (symbol : Nat)
    (boundary : List QPoint) (map : MapState) :
    ∃ r, fillBoundary env ops symbol boundary map = some r ∧
      (r.1 = false → r.2 = map) ∧
      (r.1 = true → ∃ path, r.2 = addFillObject path map ∧
        r.2.objects = map.objects ++ [path]) ∧
      (keptSamples env boundary = [] → r.1 = false) := by
  obtain ⟨sections, runs, h1, _, _⟩ := buildSections_runs env boundary
  unfold fillBoundary
  rw [h1]
  dsimp only
  by_cases hlen : (reconstruct ops (cleanSections env.pixel_length sections)).length < 2
  · rw [if_pos hlen]
    exact ⟨_, rfl, fun _ => rfl, fun h => by simp at h, fun _ => rfl⟩
  · rw [if_neg hlen]
    refine ⟨_, rfl, fun h => by simp at h, fun _ => ⟨_, rfl, rfl⟩, ?_⟩
    intro hk
    exfalso
    apply hlen
    have h0 := buildSections_of_no_sample env boundary hk
    rw [h1] at h0
    have hs : sections = [] := by simpa using h0
    rw [hs, cleanSections_nil]
    simp [reconstruct]

theorem fillBoundary_all_or_nothing_witness :
    fillBoundary noSnapEnv lineOps 7 [⟨1, 0⟩, ⟨2, 0⟩] emptyMap = some (false, emptyMap) ∧
    fillBoundary lineEnv lineOps 7 [⟨1, 0⟩, ⟨2, 0⟩] emptyMap =
      some (true, ⟨[⟨7, [(1, 0), (2, 0), (1, 0)]⟩], [0], [[0]], true⟩) := by
  obtain ⟨r1, e1, f1, _, k1⟩ :=
    fillBoundary_all_or_nothing noSnapEnv lineOps 7 [⟨1, 0⟩, ⟨2, 0⟩] emptyMap
  obtain ⟨r2, e2, _, t2, _⟩ :=
    fillBoundary_all_or_nothing lineEnv lineOps 7 [⟨1, 0⟩, ⟨2, 0⟩] emptyMap
  constructor
  · rw [e1]
    have hf : r1.1 = false := k1 (by decide)
    have hm := f1 hf
    obtain ⟨a, b⟩ := r1
    simp at hf hm
    rw [hf, hm]
  · decide!

/-! ### After a merge -/

/-- C11 (amended). After a merge at index `s` the loop goes on at the same
index, which now holds the section that followed the merged pair, with the
merged entry as its predecessor; the merged entry is not compared with the
section before it.  In particular, for every three-section input
`[S0, S1, S2]` in which `S1` does not merge with `S0` and `S2` merges with
`S1` into `M`, the cleaner outputs the two sections `[S0, M]`, whether or not
`(S0, M)` satisfies the merge condition (`S0`, `S1` as left by the widening of
lines 362-363). -/
theorem cleanSections_merged_not_reexamined (pl : ℚ) :
    (∀ (pre : List PathSection) (prev cur next : PathSection) (rest : List PathSection),
      mergeCondition pl cur prev = true →
      cleanLoop pl (pre ++ prev :: cur :: next :: rest) (pre.length + 1)
          (pre.length + 3 + rest.length) =
        cleanLoop pl (pre ++ mergedSection cur prev :: widen next :: rest) (pre.length + 1)
          (pre.length + 2 + rest.length)) ∧
    (∀ s0 s1 s2 : PathSection,
      mergeCondition pl s1 (widen s0) = false → mergeCondition pl s2 (widen s1) = true →
      cleanSections pl [s0, s1, s2] = [widen s0, mergedSection s2 (widen s1)]) := by
  constructor
  · intro pre prev cur next rest hm
    rw [cleanLoop_step pl _ _ _ (by omega), cleanBody_at pl pre prev cur (next :: rest) _ rfl,
      if_pos hm]
    simp only [if_true, widenHead]
    have e1 : pre.length + 1 - 1 + 1 = pre.length + 1 := by omega
    have e2 : pre.length + 3 + rest.length - 1 = pre.length + 2 + rest.length := by omega
    rw [e1, e2]
  · intro s0 s1 s2 h01 h12
    rw [cleanSections_cons]
    simp [cleanZip, h01, h12]

theorem cleanSections_merged_not_reexamined_witness :
    mergeCondition 1 ⟨0, 9, 20⟩ (widen ⟨0, 0, 10⟩) = false ∧
    mergeCondition 1 ⟨0, 19, 5⟩ (widen ⟨0, 9, 20⟩) = true ∧
    cleanSections 1 [⟨0, 0, 10⟩, ⟨0, 9, 20⟩, ⟨0, 19, 5⟩] =
      [widen ⟨0, 0, 10⟩, mergedSection ⟨0, 19, 5⟩ (widen ⟨0, 9, 20⟩)] :=
  ⟨by decide!, by decide!,
    (cleanSections_merged_not_reexamined 1).2 ⟨0, 0, 10⟩ ⟨0, 9, 20⟩ ⟨0, 19, 5⟩
      (by decide!) (by decide!)⟩

/-- C11 (counterexample). With `pixel_length = 1` and the three sections
`S0 = {o, 0, 10}`, `S1 = {o, 9, 20}`, `S2 = {o, 19, 5}`: `S2` merges with `S1`
into `M = {o, 9, 5}`, the pair `(S0, M)` satisfies the merge condition, and
the cleaner outputs the two sections `[S0, M]`, not a single one.  The same
pair is left unmerged when a fourth section follows. -/
theorem cleanSections_three_not_single :
    mergeCondition 1 ⟨0, 19, 5⟩ ⟨0, 9, 20⟩ = true ∧
    mergedSection ⟨0, 19, 5⟩ ⟨0, 9, 20⟩ = ⟨0, 9, 5⟩ ∧
    mergeCondition 1 ⟨0, 9, 5⟩ ⟨0, 0, 10⟩ = true ∧
    cleanSections 1 [⟨0, 0, 10⟩, ⟨0, 9, 20⟩, ⟨0, 19, 5⟩] = [⟨0, 0, 10⟩, ⟨0, 9, 5⟩] ∧
    cleanSections 1 [⟨0, 0, 10⟩, ⟨0, 9, 20⟩, ⟨0, 19, 5⟩, ⟨1, 5, 7⟩] =
      [⟨0, 0, 10⟩, ⟨0, 9, 5⟩, ⟨1, 5, 7⟩] := by
  refine ⟨by decide!, by decide!, by decide!, ?_, ?_⟩
  · rw [cleanSections_cons]
    decide!
  · rw [cleanSections_cons]
    decide!

/-! ### The two merge branches -/

theorem mergedSection_eq (pl : ℚ) (cur prev : PathSection)
    (hm : mergeCondition pl cur prev = true) :
    mergedSection cur prev = ⟨cur.object, prev.start_clen, cur.end_clen⟩ := by
  have hobj : cur.object = prev.object := by
    simp only [mergeCondition, Bool.and_eq_true, decide_eq_true_eq] at hm
    exact hm.1.1
  unfold mergedSection
  split_ifs
  · rw [hobj]
  · rfl

theorem merge_shrink_branch (pl : ℚ) (pre : List PathSection) (prev cur : PathSection)
    (rest : List PathSection) (hm : mergeCondition pl cur prev = true) :
    ((pre ++ prev :: cur :: rest).set (pre.length + 1 - 1)
        { prev with end_clen := cur.end_clen }).eraseIdx (pre.length + 1) =
      pre ++ ⟨cur.object, prev.start_clen, cur.end_clen⟩ :: rest := by
  have hobj : cur.object = prev.object := by
    simp only [mergeCondition, Bool.and_eq_true, decide_eq_true_eq] at hm
    exact hm.1.1
  rw [set_at_length pre prev _ (cur :: rest) _ (by omega)]
  have e2 : pre ++ { prev with end_clen := cur.end_clen } :: cur :: rest =
      (pre ++ [{ prev with end_clen := cur.end_clen }]) ++ cur :: rest := by simp
  rw [e2, eraseIdx_at_length _ _ _ _ (by simp), hobj]
  simp

theorem merge_extend_branch (pre : List PathSection) (prev cur : PathSection)
    (rest : List PathSection) :
    ((pre ++ prev :: cur :: rest).set (pre.length + 1)
        { cur with start_clen := prev.start_clen }).eraseIdx (pre.length + 1 - 1) =
      pre ++ ⟨cur.object, prev.start_clen, cur.end_clen⟩ :: rest := by
  have e1 : pre ++ prev :: cur :: rest = (pre ++ [prev]) ++ cur :: rest := by simp
  rw [e1, set_at_length _ cur _ rest _ (by simp)]
  have e3 : (pre ++ [prev]) ++ { cur with start_clen := prev.start_clen } :: rest =
      pre ++ prev :: ({ cur with start_clen := prev.start_clen } :: rest) := by simp
  rw [e3, eraseIdx_at_length _ _ _ _ (by omega)]

theorem split_at_index (l : List PathSection) (s : Nat) (h0 : 0 < s) (hs : s < l.length) :
    ∃ pre prev cur rest, l = pre ++ prev :: cur :: rest ∧ s = pre.length + 1 := by
  induction l generalizing s with
  | nil => simp at hs
  | cons a l ih =>
    cases l with
    | nil => simp at hs; omega
    | cons b l =>
      by_cases h1 : s = 1
      · exact ⟨[], a, b, l, rfl, by simp [h1]⟩
      · obtain ⟨pre, prev, cur, rest, e1, e2⟩ := ih (s - 1) (by omega) (by simp at hs ⊢; omega)
        exact ⟨a :: pre, prev, cur, rest, by rw [e1]; rfl, by simp; omega⟩

theorem cleanBodyWith_eq (test : PathSection → PathSection → Bool) (pl : ℚ)
    (sections : List PathSection) (s : Nat) (hs : s < sections.length) :
    cleanBodyWith test pl sections s = cleanBody pl sections s := by
  by_cases h0 : 0 < s
  · obtain ⟨pre, prev, cur, rest, e1, e2⟩ := split_at_index sections s h0 hs
    subst e1; subst e2
    have e3 : pre ++ prev :: cur :: rest = (pre ++ [prev]) ++ cur :: rest := by simp
    have hcur : (pre ++ prev :: cur :: rest).getD (pre.length + 1) default = cur := by
      rw [e3]; exact getD_at_length _ _ _ _ (by simp)
    have hprev : (pre ++ prev :: cur :: rest).getD (pre.length + 1 - 1) default = prev :=
      getD_at_length _ _ _ _ (by omega)
    unfold cleanBodyWith cleanBody
    dsimp only
    rw [hcur, hprev]
    by_cases hm : mergeCondition pl cur prev = true
    · rw [merge_shrink_branch pl pre prev cur rest hm, merge_extend_branch pre prev cur rest]
      simp
    · simp [hm]
  · have hs0 : s = 0 := by omega
    subst hs0
    simp [cleanBodyWith, cleanBody]

theorem cleanBody_length (pl : ℚ) (sections : List PathSection) (s : Nat)
    (hs : s < sections.length) :
    (cleanBody pl sections s).1.length =
      if (cleanBody pl sections s).2 then sections.length - 1 else sections.length := by
  by_cases h0 : 0 < s
  · obtain ⟨pre, prev, cur, rest, e1, e2⟩ := split_at_index sections s h0 hs
    subst e1; subst e2
    rw [cleanBody_at pl pre prev cur rest _ rfl]
    by_cases hm : mergeCondition pl cur prev = true
    · rw [if_pos hm]
      cases rest <;> simp [widenHead]
    · rw [if_neg hm]
      simp
  · have hs0 : s = 0 := by omega
    subst hs0
    cases sections with
    | nil => simp at hs
    | cons a l => simp [cleanBody_first]

theorem cleanLoopWith_eq (test : PathSection → PathSection → Bool) (pl : ℚ) :
    ∀ (n : Nat) (sections : List PathSection) (s end_ : Nat),
      2 * end_ - s ≤ n → end_ = sections.length →
      cleanLoopWith test pl sections s end_ = cleanLoop pl sections s end_ := by
  intro n
  induction n with
  | zero =>
    intro sections s end_ hn _
    rw [cleanLoopWith, cleanLoop, dif_neg (by omega), dif_neg (by omega)]
  | succ n ih =>
    intro sections s end_ hn he
    by_cases hlt : s < end_
    · rw [cleanLoopWith, cleanLoop, dif_pos hlt, dif_pos hlt]
      dsimp only
      rw [cleanBodyWith_eq test pl sections s (by omega)]
      have hlen := cleanBody_length pl sections s (by omega)
      by_cases hb : (cleanBody pl sections s).2 = true
      · rw [if_pos hb, if_pos hb]
        rw [if_pos hb] at hlen
        exact ih _ _ _ (by omega) (by omega)
      · rw [if_neg hb, if_neg hb]
        rw [if_neg hb] at hlen
        exact ih _ _ _ (by omega) (by omega)
    · rw [cleanLoopWith, cleanLoop, dif_neg hlt, dif_neg hlt]

/-- C17. Whenever `sections[s - 1] = prev` and `sections[s] = cur` satisfy the
merge condition, the branch "shrink `prev`, erase `cur`" (lines 344-345) and
the branch "extend `cur`, erase `prev`" (lines 351-352) produce the same
vector: the sections before `prev`, then `{object, prev.start_clen,
cur.end_clen}`, then the sections after `cur`.  Hence the cleaner's output
does not depend on the test of line 340: with any other test in its place the
cleaner returns the same list. -/
theorem merge_branches_agree (pl : ℚ) (pre : List PathSection) (prev cur : PathSection)
    (rest : List PathSection) (hm : mergeCondition pl cur prev = true) :
    ((pre ++ prev :: cur :: rest).set (pre.length + 1 - 1)
        { prev with end_clen := cur.end_clen }).eraseIdx (pre.length + 1) =
      pre ++ ⟨cur.object, prev.start_clen, cur.end_clen⟩ :: rest ∧
    ((pre ++ prev :: cur :: rest).set (pre.length + 1)
        { cur with start_clen := prev.start_clen }).eraseIdx (pre.length + 1 - 1) =
      pre ++ ⟨cur.object, prev.start_clen, cur.end_clen⟩ :: rest ∧
    ∀ (test : PathSection → PathSection → Bool) (sections : List PathSection),
      cleanSectionsWith test pl sections = cleanSections pl sections := by
  refine ⟨merge_shrink_branch pl pre prev cur rest hm, merge_extend_branch pre prev cur rest, ?_⟩
  intro test sections
  unfold cleanSectionsWith cleanSections
  exact cleanLoopWith_eq test pl (2 * sections.length) sections 0 sections.length (by omega) rfl

theorem merge_branches_agree_witness :
    mergeCondition 1 ⟨0, 19, 5⟩ ⟨0, 9, 20⟩ = true ∧
    cleanSectionsWith (fun _ _ => true) 1 backtrackSections =
      cleanSections 1 backtrackSections :=
  ⟨by decide!,
    (merge_branches_agree 1 [⟨0, 0, 10⟩] ⟨0, 9, 20⟩ ⟨0, 19, 5⟩ [⟨1, 5, 7⟩] (by decide!)).2.2
      (fun _ _ => true) backtrackSections⟩

/-! ### Exactness of the containment test on traced contours -/

/-- C16. For every contour whose cyclically consecutive vertices differ by at
most 1 in each coordinate and every integer point `p`: on every edge for which
the first operand of `&&` holds, so that the quotient is evaluated, the
divisor `out_boundary[j].y - out_boundary[i].y` is 1 or -1 and the truncating
division leaves no remainder; and the flag computed by the containment loop
equals the even-odd test with the crossing points computed in the
rationals. -/
theorem insideTest_exact_on_traced (p : QPoint) (out : List QPoint)
    (hstep : ∀ e ∈ polygonEdges out, Near e.1 e.2) :
    (∀ e ∈ polygonEdges out, (decide (e.1.y > p.y) != decide (e.2.y > p.y)) = true →
      (e.2.y - e.1.y = 1 ∨ e.2.y - e.1.y = -1) ∧
      Int.tdiv ((e.2.x - e.1.x) * (p.y - e.1.y)) (e.2.y - e.1.y) * (e.2.y - e.1.y) =
        (e.2.x - e.1.x) * (p.y - e.1.y)) ∧
    insideTest p out = decide (Odd (crossingCount p out)) := by
  constructor
  · intro e he hs
    have hn := (hstep e he).2
    have hd : e.2.y - e.1.y = 1 ∨ e.2.y - e.1.y = -1 := by
      rw [abs_le] at hn
      simp only [bne_iff_ne, ne_eq, decide_eq_decide] at hs
      by_cases h1 : e.1.y > p.y <;> by_cases h2 : e.2.y > p.y
      · exact absurd (iff_of_true h1 h2) hs
      · right; omega
      · left; omega
      · exact absurd (iff_of_false h1 h2) hs
    refine ⟨hd, ?_⟩
    rcases hd with hd | hd
    · rw [hd, Int.tdiv_one, mul_one]
    · rw [hd, Int.tdiv_neg, Int.tdiv_one]
      ring
  · have hy : ∀ e ∈ polygonEdges out, abs (e.1.y - e.2.y) ≤ 1 := fun e he => (hstep e he).2
    unfold insideTest crossingCount
    unfold polygonEdges at hy ⊢
    cases hl : out.getLast? with
    | none => simp
    | some last =>
      rw [hl] at hy
      dsimp only at hy ⊢
      have h := insideFrom_parity p out last false hy
      simp only [iff_true] at h
      rw [Bool.eq_iff_iff, h]
      simp

theorem insideTest_exact_on_traced_witness :
    (∀ e ∈ polygonEdges [⟨4, 3⟩, ⟨3, 4⟩, ⟨2, 3⟩, ⟨3, 2⟩], Near e.1 e.2) ∧
    insideTest ⟨1, 3⟩ [⟨4, 3⟩, ⟨3, 4⟩, ⟨2, 3⟩, ⟨3, 2⟩] =
      decide (Odd (crossingCount ⟨1, 3⟩ [⟨4, 3⟩, ⟨3, 4⟩, ⟨2, 3⟩, ⟨3, 2⟩])) :=
  ⟨by unfold Near; decide,
    (insideTest_exact_on_traced ⟨1, 3⟩ [⟨4, 3⟩, ⟨3, 4⟩, ⟨2, 3⟩, ⟨3, 2⟩]
      (by unfold Near; decide)).2⟩

/-! ### Pixel reads of the tracing loop -/

theorem valid_of_rectContains (img : QImage) (p : QPoint) (h : rectContains img p = true) :
    img.valid p = true := by
  simp only [rectContains, Bool.and_eq_true, decide_eq_true_eq] at h
  simp only [QImage.valid, Bool.and_eq_true, decide_eq_true_eq]
  omega

theorem not_rectContains_of_not_valid (img : QImage) (p : QPoint) (h : img.valid p = false) :
    rectContains img p = false := by
  by_contra hc
  rw [valid_of_rectContains img p (by simpa using hc)] at h
  exact absurd h (by simp)

theorem traceMoveChecked_eq (img : QImage) (cur fwd : QPoint)
    (h1 : img.valid (cur + fwd + rightVector fwd) = true)
    (h2 : img.valid (cur + rightVector fwd) = true) :
    traceMoveChecked img cur fwd = some (traceMove img cur fwd) := by
  unfold traceMoveChecked traceMove
  simp only [pixelAlphaChecked, h1, h2, if_true, occupied, pixelAlpha, decide_eq_true_eq]
  split_ifs <;> rfl

theorem traceLoop_of_reached (img : QImage) (start test : QPoint) {n : Nat}
    {cur fwd : QPoint} {out : List QPoint} (h : Reached img start test n cur fwd out) :
    traceLoop img start test n cur fwd out = traceRun img start test := by
  induction h with
  | init => rfl
  | step _ h1 h2 h3 ih =>
    rw [← ih, traceLoop, if_neg (by simp [h1]), if_neg (by simp [h2])]
    dsimp only
    rw [if_neg h3]

/-- C12. In every image, for every `start_pixel` and `test_pixel`: when the
tracing loop reaches a state in which `cur_pixel + fwd_vector + right_vector`
or `cur_pixel + right_vector` does not address a pixel of the image,
`traceBoundary` returns false with the contour as it is in that state, without
reading that pixel; and the loop with checked pixel access never takes the
out-of-range branch of `pixel` and computes what the loop computes, so every
pixel read in the loop lies in `[0, width) x [0, height)`. -/
theorem traceLoop_reads_in_range (img : QImage) (start test : QPoint) :
    (∀ (n : Nat) (cur fwd : QPoint) (out : List QPoint),
      Reached img start test (n + 1) cur fwd out →
      img.valid (cur + fwd + rightVector fwd) = false ∨
        img.valid (cur + rightVector fwd) = false →
      traceLoopChecked img start test (n + 1) cur fwd out = some (LoopExit.outOfRect, out) ∧
        traceBoundary img start test = (false, out)) ∧
    (∀ (n : Nat) (cur fwd : QPoint) (out : List QPoint),
      traceLoopChecked img start test n cur fwd out =
        some (traceLoop img start test n cur fwd out)) := by
  have hchecked : ∀ (n : Nat) (cur fwd : QPoint) (out : List QPoint),
      traceLoopChecked img start test n cur fwd out =
        some (traceLoop img start test n cur fwd out) := by
    intro n
    induction n with
    | zero => intro cur fwd out; rfl
    | succ n ih =>
      intro cur fwd out
      rw [traceLoopChecked, traceLoop]
      by_cases h1 : rectContains img (cur + fwd + rightVector fwd) = true
      · by_cases h2 : rectContains img (cur + rightVector fwd) = true
        · rw [if_neg (by simp [h1]), if_neg (by simp [h2]), if_neg (by simp [h1]),
            if_neg (by simp [h2]),
            traceMoveChecked_eq img cur fwd (valid_of_rectContains img _ h1)
              (valid_of_rectContains img _ h2)]
          dsimp only
          split_ifs
          · rfl
          · exact ih _ _ _
        · rw [if_neg (by simp [h1]), if_pos (by simpa using h2), if_neg (by simp [h1]),
            if_pos (by simpa using h2)]
      · rw [if_pos (by simpa using h1), if_pos (by simpa using h1)]
  refine ⟨?_, hchecked⟩
  intro n cur fwd out hreach h
  have hloop : traceLoopChecked img start test (n + 1) cur fwd out =
      some (LoopExit.outOfRect, out) := by
    rw [traceLoopChecked]
    by_cases h1 : rectContains img (cur + fwd + rightVector fwd) = true
    · have h2 : rectContains img (cur + rightVector fwd) = false := by
        rcases h with h | h
        · rw [not_rectContains_of_not_valid img _ h] at h1
          exact absurd h1 (by simp)
        · exact not_rectContains_of_not_valid img _ h
      rw [if_neg (by simp [h1]), if_pos (by simp [h2])]
    · rw [if_pos (by simpa using h1)]
  refine ⟨hloop, ?_⟩
  have hrun : traceRun img start test = (LoopExit.outOfRect, out) := by
    rw [← traceLoop_of_reached img start test hreach]
    have := hchecked (n + 1) cur fwd out
    rw [hloop] at this
    exact (Option.some.inj this).symm
  unfold traceBoundary
  rw [hrun]

theorem traceLoop_reads_in_range_witness :
    Reached (imageOfRows 2 1 [[0, 255]]) ⟨0, 0⟩ ⟨1, 0⟩ (1 + 1) ⟨1, 0⟩ ⟨-1, 0⟩ [⟨1, 0⟩] ∧
    ((imageOfRows 2 1 [[0, 255]]).valid (⟨1, 0⟩ + ⟨-1, 0⟩ + rightVector ⟨-1, 0⟩) = false ∨
      (imageOfRows 2 1 [[0, 255]]).valid (⟨1, 0⟩ + rightVector ⟨-1, 0⟩) = false) ∧
    traceBoundary (imageOfRows 2 1 [[0, 255]]) ⟨0, 0⟩ ⟨1, 0⟩ = (false, [⟨1, 0⟩]) :=
  ⟨Reached.init, by decide,
    ((traceLoop_reads_in_range (imageOfRows 2 1 [[0, 255]]) ⟨0, 0⟩ ⟨1, 0⟩).1 1 ⟨1, 0⟩ ⟨-1, 0⟩
      [⟨1, 0⟩] Reached.init (by decide)).2⟩

/-! ### The state invariant of the tracing loop -/

theorem traceMove_valid (img : QImage) (cur fwd : QPoint) (h : ValidState img cur fwd) :
    ValidState img (traceMove img cur fwd).1 (traceMove img cur fwd).2 := by
  obtain ⟨hu, hc, hf⟩ := h
  refine ⟨(traceMove_near img cur fwd hu).2, ?_, ?_⟩
  · unfold traceMove
    split_ifs with h1 h2
    · exact h1
    · exact h2
    · exact hc
  · unfold traceMove
    split_ifs with h1 h2
    · have e : cur + fwd + rightVector fwd + -rightVector fwd = cur + fwd := by
        simp [QPoint.ext_iff2]
      dsimp only
      rw [e]
      exact hf
    · have e : cur + rightVector fwd + fwd = cur + fwd + rightVector fwd := by
        simp [QPoint.ext_iff2]
        constructor <;> ring
      dsimp only
      rw [e]
      simpa using h1
    · simpa using h2

theorem pushIfNew_mem (out : List QPoint) (c p : QPoint) (h : p ∈ pushIfNew out c) :
    p ∈ out ∨ p = c := by
  unfold pushIfNew at h
  split_ifs at h
  · simpa using h
  · exact Or.inl h

theorem valid_of_reached (img : QImage) (start : QPoint)
    (hstart : occupied img start = false) (htest : occupied img (start + ⟨1, 0⟩) = true)
    {n : Nat} {cur fwd : QPoint} {out : List QPoint}
    (h : Reached img start (start + ⟨1, 0⟩) n cur fwd out) :
    ValidState img cur fwd ∧ ∀ p ∈ out, occupied img p = true := by
  induction h with
  | init =>
    refine ⟨⟨?_, htest, ?_⟩, ?_⟩
    · right; left
      simp [QPoint.ext_iff2]
    · have e : start + ⟨1, 0⟩ + (start - (start + ⟨1, 0⟩)) = start := by
        simp [QPoint.ext_iff2]
      rw [e]
      exact hstart
    · intro p hp
      simp at hp
      rw [hp]
      exact htest
  | step _ _ _ _ ih =>
    have hv := traceMove_valid img _ _ ih.1
    refine ⟨hv, ?_⟩
    intro p hp
    rcases pushIfNew_mem _ _ _ hp with h1 | h1
    · exact ih.2 p h1
    · rw [h1]
      exact hv.2.1

theorem traceLoop_contour_occupied (img : QImage) (start test : QPoint) :
    ∀ (n : Nat) (cur fwd : QPoint) (out : List QPoint),
      ValidState img cur fwd → (∀ p ∈ out, occupied img p = true) →
      ∀ p ∈ (traceLoop img start test n cur fwd out).2, occupied img p = true := by
  intro n
  induction n with
  | zero => intro cur fwd out _ hout; exact hout
  | succ n ih =>
    intro cur fwd out hv hout
    rw [traceLoop]
    dsimp only
    split_ifs
    · exact hout
    · exact hout
    · exact hout
    · have hv' := traceMove_valid img cur fwd hv
      apply ih _ _ _ hv'
      intro p hp
      rcases pushIfNew_mem _ _ _ hp with h1 | h1
      · exact hout p h1
      · rw [h1]
        exact hv'.2.1

/-- C14. When `start_pixel` is free and `test_pixel = start_pixel + (1, 0)` is
obstructed: in every state the tracing loop reaches, `fwd_vector` is a unit
vector along an axis, `cur_pixel` is obstructed and `cur_pixel + fwd_vector`
is free, both at the start of the iteration and after the three-way branch of
its body; every point stored in `out_boundary`, in every state and on return
from `traceBoundary`, is an obstructed pixel. -/
theorem traceLoop_state_invariant (img : QImage) (start : QPoint)
    (hstart : occupied img start = false) (htest : occupied img (start + ⟨1, 0⟩) = true) :
    (∀ (n : Nat) (cur fwd : QPoint) (out : List QPoint),
      Reached img start (start + ⟨1, 0⟩) n cur fwd out →
      ValidState img cur fwd ∧
        ValidState img (traceMove img cur fwd).1 (traceMove img cur fwd).2 ∧
        ∀ p ∈ out, occupied img p = true) ∧
    ∀ p ∈ (traceBoundary img start (start + ⟨1, 0⟩)).2, occupied img p = true := by
  constructor
  · intro n cur fwd out h
    have hv := valid_of_reached img start hstart htest h
    exact ⟨hv.1, traceMove_valid img cur fwd hv.1, hv.2⟩
  · rw [traceBoundary_snd]
    unfold traceRun
    have hv := valid_of_reached img start hstart htest Reached.init
    exact traceLoop_contour_occupied img start _ _ _ _ _ hv.1 hv.2

theorem traceLoop_state_invariant_witness :
    occupied ringImage ⟨3, 3⟩ = false ∧ occupied ringImage (⟨3, 3⟩ + ⟨1, 0⟩) = true ∧
    ∀ p ∈ (traceBoundary ringImage ⟨3, 3⟩ (⟨3, 3⟩ + ⟨1, 0⟩)).2, occupied ringImage p = true :=
  ⟨by decide, by decide,
    (traceLoop_state_invariant ringImage ⟨3, 3⟩ (by decide) (by decide)).2⟩

/-! ### Reversibility of the wall follower -/

theorem QPoint.eq_of_coords {a b : QPoint} (hx : a.x = b.x) (hy : a.y = b.y) : a = b :=
  (QPoint.ext_iff2 a b).mpr ⟨hx, hy⟩

theorem rightVector_x (v : QPoint) : (rightVector v).x = v.y := rfl

theorem rightVector_y (v : QPoint) : (rightVector v).y = -v.x := rfl

theorem traceBack_traceMove (img : QImage) (cur fwd : QPoint)
    (hc : occupied img cur = true) (hf : occupied img (cur + fwd) = false) :
    traceBack img (traceMove img cur fwd).1 (traceMove img cur fwd).2 = (cur, fwd) := by
  unfold traceMove
  split_ifs with h1 h2
  · have ea : cur + fwd + rightVector fwd - rightVector (-rightVector fwd) +
        -rightVector fwd = cur := by
      apply QPoint.eq_of_coords
      · simp only [QPoint.add_x, QPoint.add_y, QPoint.sub_x, QPoint.sub_y, QPoint.neg_x,
        QPoint.neg_y, rightVector_x, rightVector_y]
        ring
      · simp only [QPoint.add_x, QPoint.add_y, QPoint.sub_x, QPoint.sub_y, QPoint.neg_x,
        QPoint.neg_y, rightVector_x, rightVector_y]
        ring
    have er : rightVector (-rightVector fwd) = fwd := by
      apply QPoint.eq_of_coords
      · simp only [QPoint.add_x, QPoint.add_y, QPoint.sub_x, QPoint.sub_y, QPoint.neg_x,
        QPoint.neg_y, rightVector_x, rightVector_y]
        ring
      · simp only [QPoint.add_x, QPoint.add_y, QPoint.sub_x, QPoint.sub_y, QPoint.neg_x,
        QPoint.neg_y, rightVector_x, rightVector_y]
        ring
    unfold traceBack
    dsimp only
    rw [ea, if_pos hc, er]
  · have eb : cur + rightVector fwd - rightVector fwd + fwd = cur + fwd := by
      apply QPoint.eq_of_coords
      · simp only [QPoint.add_x, QPoint.add_y, QPoint.sub_x, QPoint.sub_y, QPoint.neg_x,
        QPoint.neg_y, rightVector_x, rightVector_y]
        ring
      · simp only [QPoint.add_x, QPoint.add_y, QPoint.sub_x, QPoint.sub_y, QPoint.neg_x,
        QPoint.neg_y, rightVector_x, rightVector_y]
        ring
    have ea : cur + rightVector fwd - rightVector fwd = cur := by
      apply QPoint.eq_of_coords
      · simp only [QPoint.add_x, QPoint.add_y, QPoint.sub_x, QPoint.sub_y, QPoint.neg_x,
        QPoint.neg_y, rightVector_x, rightVector_y]
        ring
      · simp only [QPoint.add_x, QPoint.add_y, QPoint.sub_x, QPoint.sub_y, QPoint.neg_x,
        QPoint.neg_y, rightVector_x, rightVector_y]
        ring
    unfold traceBack
    dsimp only
    rw [eb, if_neg (by simp [hf]), ea, if_pos hc]
  · have eb : cur - rightVector (rightVector fwd) + rightVector fwd =
        cur + fwd + rightVector fwd := by
      apply QPoint.eq_of_coords
      · simp only [QPoint.add_x, QPoint.add_y, QPoint.sub_x, QPoint.sub_y, QPoint.neg_x,
        QPoint.neg_y, rightVector_x, rightVector_y]
        ring
      · simp only [QPoint.add_x, QPoint.add_y, QPoint.sub_x, QPoint.sub_y, QPoint.neg_x,
        QPoint.neg_y, rightVector_x, rightVector_y]
        ring
    have ea : cur - rightVector (rightVector fwd) = cur + fwd := by
      apply QPoint.eq_of_coords
      · simp only [QPoint.add_x, QPoint.add_y, QPoint.sub_x, QPoint.sub_y, QPoint.neg_x,
        QPoint.neg_y, rightVector_x, rightVector_y]
        ring
      · simp only [QPoint.add_x, QPoint.add_y, QPoint.sub_x, QPoint.sub_y, QPoint.neg_x,
        QPoint.neg_y, rightVector_x, rightVector_y]
        ring
    have er : -rightVector (rightVector fwd) = fwd := by
      apply QPoint.eq_of_coords
      · simp only [QPoint.add_x, QPoint.add_y, QPoint.sub_x, QPoint.sub_y, QPoint.neg_x,
        QPoint.neg_y, rightVector_x, rightVector_y]
        ring
      · simp only [QPoint.add_x, QPoint.add_y, QPoint.sub_x, QPoint.sub_y, QPoint.neg_x,
        QPoint.neg_y, rightVector_x, rightVector_y]
        ring
    unfold traceBack
    dsimp only
    rw [eb, if_neg h1, ea, if_neg (by simp [hf]), er]

theorem traceMove_injective (img : QImage) (c1 f1 c2 f2 : QPoint)
    (h1 : ValidState img c1 f1) (h2 : ValidState img c2 f2)
    (h : traceMove img c1 f1 = traceMove img c2 f2) : (c1, f1) = (c2, f2) := by
  rw [← traceBack_traceMove img c1 f1 h1.2.1 h1.2.2, ← traceBack_traceMove img c2 f2 h2.2.1 h2.2.2,
    h]

theorem traceIter_valid (img : QImage) (s : QPoint × QPoint) (hs : ValidState img s.1 s.2) :
    ∀ k, ValidState img (traceIter img k s).1 (traceIter img k s).2 := by
  intro k
  induction k with
  | zero => exact hs
  | succ k ih => exact traceMove_valid img _ _ ih

theorem traceIter_return (img : QImage) (s : QPoint × QPoint) (hs : ValidState img s.1 s.2) :
    ∀ i j, i < j → traceIter img i s = traceIter img j s → traceIter img (j - i) s = s := by
  intro i
  induction i with
  | zero => intro j _ h; exact h.symm
  | succ i ih =>
    intro j hij h
    obtain ⟨j', rfl⟩ : ∃ j', j = j' + 1 := ⟨j - 1, by omega⟩
    have hinj := traceMove_injective img _ _ _ _ (traceIter_valid img s hs i)
      (traceIter_valid img s hs j') h
    have e : j' + 1 - (i + 1) = j' - i := by omega
    rw [e]
    exact ih j' (by omega) hinj

theorem valid_of_occupied (img : QImage) (p : QPoint) (h : occupied img p = true) :
    img.valid p = true := by
  by_contra hv
  simp [occupied, pixelAlpha, hv] at h

theorem dirIndex_lt (v : QPoint) : dirIndex v < 4 := by
  unfold dirIndex
  split_ifs <;> omega

theorem dirIndex_injective (a b : QPoint) (ha : UnitAxis a) (hb : UnitAxis b)
    (h : dirIndex a = dirIndex b) : a = b := by
  rcases ha with ha | ha | ha | ha <;> rcases hb with hb | hb | hb | hb <;> subst ha <;>
    subst hb <;> first | rfl | (exfalso; revert h; decide)

theorem traceIter_cycle (img : QImage) (s : QPoint × QPoint) (hs : ValidState img s.1 s.2) :
    ∃ k, 0 < k ∧ k ≤ 4 * (img.width * img.height) ∧ traceIter img k s = s := by
  let code : Nat → (Nat × Nat) × Nat := fun k =>
    (((traceIter img k s).1.x.toNat, (traceIter img k s).1.y.toNat),
      dirIndex (traceIter img k s).2)
  let target : Finset ((Nat × Nat) × Nat) :=
    (Finset.range img.width ×ˢ Finset.range img.height) ×ˢ Finset.range 4
  have hbox : ∀ k, 0 ≤ (traceIter img k s).1.x ∧ (traceIter img k s).1.x < img.width ∧
      0 ≤ (traceIter img k s).1.y ∧ (traceIter img k s).1.y < img.height := by
    intro k
    have hv := valid_of_occupied img _ (traceIter_valid img s hs k).2.1
    simp only [QImage.valid, Bool.and_eq_true, decide_eq_true_eq] at hv
    omega
  have hcard : target.card < (Finset.range (4 * (img.width * img.height) + 1)).card := by
    simp only [target, Finset.card_product, Finset.card_range]
    have : img.width * img.height * 4 = 4 * (img.width * img.height) := by ring
    omega
  have hmaps : ∀ k ∈ Finset.range (4 * (img.width * img.height) + 1), code k ∈ target := by
    intro k _
    have hb := hbox k
    simp only [target, code, Finset.mem_product, Finset.mem_range]
    refine ⟨⟨?_, ?_⟩, dirIndex_lt _⟩
    · omega
    · omega
  obtain ⟨i, hi, j, hj, hne, heq⟩ :=
    Finset.exists_ne_map_eq_of_card_lt_of_maps_to hcard hmaps
  have hstate : traceIter img i s = traceIter img j s := by
    simp only [code, Prod.mk.injEq] at heq
    have hbi := hbox i
    have hbj := hbox j
    have hx : (traceIter img i s).1.x = (traceIter img j s).1.x := by omega
    have hy : (traceIter img i s).1.y = (traceIter img j s).1.y := by omega
    have hf := dirIndex_injective _ _ (traceIter_valid img s hs i).1
      (traceIter_valid img s hs j).1 heq.2
    exact Prod.ext (QPoint.eq_of_coords hx hy) hf
  simp only [Finset.mem_range] at hi hj
  rcases Nat.lt_or_gt_of_ne hne with hlt | hgt
  · exact ⟨j - i, by omega, by omega, traceIter_return img s hs i j hlt hstate⟩
  · exact ⟨i - j, by omega, by omega, traceIter_return img s hs j i hgt hstate.symm⟩

theorem iter_of_reached (img : QImage) (start test : QPoint) {n : Nat} {cur fwd : QPoint}
    {out : List QPoint} (h : Reached img start test n cur fwd out) :
    n ≤ img.width * img.height ∧
      (cur, fwd) = traceIter img (img.width * img.height - n) (test, start - test) ∧
      ∀ j, 1 ≤ j → j ≤ img.width * img.height - n →
        traceIter img j (test, start - test) ≠ (test, start - test) := by
  induction h with
  | init =>
    refine ⟨le_refl _, ?_, ?_⟩
    · rw [Nat.sub_self]
      rfl
    · intro j h1 h2
      omega
  | @step n cur fwd out _ _ _ h3 ih =>
    obtain ⟨ih1, ih2, ih3⟩ := ih
    have e : img.width * img.height - n = (img.width * img.height - (n + 1)) + 1 := by omega
    have hiter : traceIter img (img.width * img.height - n) (test, start - test) =
        traceMove img cur fwd := by
      rw [e, traceIter, ← ih2]
    refine ⟨by omega, ?_, ?_⟩
    · rw [hiter]
    · intro j h1 h2
      by_cases hj : j ≤ img.width * img.height - (n + 1)
      · exact ih3 j h1 hj
      · have ej : j = img.width * img.height - n := by omega
        rw [ej, hiter]
        intro hc
        apply h3
        rw [hc]
        refine ⟨rfl, ?_⟩
        apply QPoint.eq_of_coords
        · simp only [QPoint.add_x, QPoint.sub_x]
          ring
        · simp only [QPoint.add_y, QPoint.sub_y]
          ring

/-- C15. The three-way branch of the loop body, taken without the checks
against the image rectangle (pixels outside the image are free), is injective
on valid states (`cur` obstructed, `cur + fwd` free, `fwd` a unit vector along
an axis): two distinct valid states never step to the same state.  Hence every
valid state comes back to itself after at most `4 * width * height` steps,
and two steps of its orbit that meet in the same state are a whole number of
returns to the initial state apart.  For the tracing loop, which breaks when it
is back in its initial state, this means that it never is in the same state
`(cur_pixel, fwd_vector)` in two iterations. -/
theorem wall_follower_reversible (img : QImage) :
    (∀ c1 f1 c2 f2 : QPoint, ValidState img c1 f1 → ValidState img c2 f2 →
      traceMove img c1 f1 = traceMove img c2 f2 → c1 = c2 ∧ f1 = f2) ∧
    (∀ s : QPoint × QPoint, ValidState img s.1 s.2 →
      (∃ k, 0 < k ∧ k ≤ 4 * (img.width * img.height) ∧ traceIter img k s = s) ∧
      ∀ i j, i < j → traceIter img i s = traceIter img j s → traceIter img (j - i) s = s) ∧
    (∀ start : QPoint, occupied img start = false → occupied img (start + ⟨1, 0⟩) = true →
      ∀ (n1 n2 : Nat) (c1 f1 c2 f2 : QPoint) (o1 o2 : List QPoint),
        Reached img start (start + ⟨1, 0⟩) n1 c1 f1 o1 →
        Reached img start (start + ⟨1, 0⟩) n2 c2 f2 o2 →
        n1 ≠ n2 → (c1, f1) ≠ (c2, f2)) := by
  refine ⟨?_, ?_, ?_⟩
  · intro c1 f1 c2 f2 h1 h2 h
    have := traceMove_injective img c1 f1 c2 f2 h1 h2 h
    exact ⟨congrArg Prod.fst this, congrArg Prod.snd this⟩
  · intro s hs
    exact ⟨traceIter_cycle img s hs, traceIter_return img s hs⟩
  · intro start hstart htest
    have hinit : ValidState img (start + ⟨1, 0⟩) (start - (start + ⟨1, 0⟩)) :=
      (valid_of_reached img start hstart htest Reached.init).1
    have key : ∀ (n1 n2 : Nat) (c1 f1 c2 f2 : QPoint) (o1 o2 : List QPoint),
        Reached img start (start + ⟨1, 0⟩) n1 c1 f1 o1 →
        Reached img start (start + ⟨1, 0⟩) n2 c2 f2 o2 →
        n2 < n1 → (c1, f1) ≠ (c2, f2) := by
      intro n1 n2 c1 f1 c2 f2 o1 o2 r1 r2 hlt heq
      obtain ⟨a1, a2, _⟩ := iter_of_reached img start _ r1
      obtain ⟨b1, b2, b3⟩ := iter_of_reached img start _ r2
      rw [a2, b2] at heq
      have hret := traceIter_return img (start + ⟨1, 0⟩, start - (start + ⟨1, 0⟩)) hinit
        _ _ (by omega) heq
      exact b3 _ (by omega) (by omega) hret
    intro n1 n2 c1 f1 c2 f2 o1 o2 r1 r2 hne
    rcases Nat.lt_or_gt_of_ne hne with hlt | hgt
    · exact fun h => key n2 n1 c2 f2 c1 f1 o2 o1 r2 r1 hlt h.symm
    · exact key n1 n2 c1 f1 c2 f2 o1 o2 r1 r2 hgt

theorem wall_follower_reversible_witness :
    ValidState ringImage ⟨4, 3⟩ ⟨-1, 0⟩ ∧
    ∃ k, 0 < k ∧ k ≤ 4 * (ringImage.width * ringImage.height) ∧
      traceIter ringImage k (⟨4, 3⟩, ⟨-1, 0⟩) = (⟨4, 3⟩, ⟨-1, 0⟩) :=
  ⟨⟨Or.inr (Or.inl rfl), by decide, by decide⟩,
    ((wall_follower_reversible ringImage).2.1 (⟨4, 3⟩, ⟨-1, 0⟩)
      ⟨Or.inr (Or.inl rfl), by decide, by decide⟩).1⟩

/-! ### The scan keeps to the tracer's preconditions -/

theorem skipRunLog_fst (img : QImage) (y : Int) :
    ∀ (n : Nat) (x : Int), (skipRunLog img y n x).1 = skipRun img y n x := by
  intro n
  induction n with
  | zero => intro x; rfl
  | succ n ih =>
    intro x
    rw [skipRunLog, skipRun]
    by_cases h1 : x < (img.width : Int) - 1
    · by_cases h2 : occupied img ⟨x, y⟩ = true
      · rw [if_pos h1, if_pos h2, if_pos ⟨h1, h2⟩]
        exact ih _
      · rw [if_pos h1, if_neg h2, if_neg (fun h => h2 h.2)]
    · rw [if_neg h1, if_neg (fun h => h1 h.1)]

theorem scanLoopLog_fst (img : QImage) :
    ∀ (n : Nat) (start : QPoint), (scanLoopLog img n start).1 = scanLoop img n start := by
  intro n
  induction n with
  | zero => intro start; rfl
  | succ n ih =>
    intro start
    rw [scanLoopLog, scanLoop]
    dsimp only
    by_cases h1 : start.x < (img.width : Int) - 1
    · rw [if_pos h1, if_pos h1]
      by_cases h2 : (!occupied img (start + ⟨1, 0⟩)) = true
      · rw [if_pos h2, if_pos h2]
        exact ih _
      · rw [if_neg h2, if_neg h2]
        by_cases h3 : (!(traceBoundary img start (start + ⟨1, 0⟩)).1) = true
        · rw [if_pos h3, if_pos h3, ← skipRunLog_fst]
          cases (skipRunLog img start.y (n + 1) (start.x + 1)).1 with
          | none => rfl
          | some x => exact ih _
        · rw [if_neg h3, if_neg h3]
    · rw [if_neg h1, if_neg h1]

theorem skipRunLog_safe (img : QImage) (y : Int) (hy : 0 ≤ y ∧ y < img.height) :
    ∀ (n : Nat) (x : Int), 0 ≤ x → ∀ e ∈ (skipRunLog img y n x).2, e.Safe img := by
  intro n
  induction n with
  | zero => intro x _ e he; simp [skipRunLog] at he
  | succ n ih =>
    intro x hx e he
    have hread : x < (img.width : Int) - 1 → (ScanEvent.read ⟨x, y⟩).Safe img := by
      intro h1
      simp only [ScanEvent.Safe, QImage.valid, Bool.and_eq_true, decide_eq_true_eq]
      omega
    rw [skipRunLog] at he
    by_cases h1 : x < (img.width : Int) - 1
    · rw [if_pos h1] at he
      by_cases h2 : occupied img ⟨x, y⟩ = true
      · rw [if_pos h2] at he
        rcases List.mem_cons.mp he with h | h
        · rw [h]; exact hread h1
        · exact ih (x + 1) (by omega) e h
      · rw [if_neg h2] at he
        simp only [List.mem_singleton] at he
        rw [he]; exact hread h1
    · rw [if_neg h1] at he
      simp at he

theorem scanLoopLog_safe (img : QImage) (y : Int) (hy : 0 ≤ y ∧ y < img.height) :
    ∀ (n : Nat) (x : Int), ((img.width : Int) - 1 - x).toNat < n → 0 ≤ x →
      (x < (img.width : Int) - 1 → occupied img ⟨x, y⟩ = false) →
      ∀ e ∈ (scanLoopLog img n ⟨x, y⟩).2, e.Safe img := by
  intro n
  induction n with
  | zero => intro x hn; omega
  | succ n ih =>
    intro x hn hx hfree e he
    rw [scanLoopLog] at he
    dsimp only at he
    by_cases h1 : x < (img.width : Int) - 1
    · have hvs : img.valid ⟨x, y⟩ = true := by
        simp only [QImage.valid, Bool.and_eq_true, decide_eq_true_eq]
        omega
      have hvt : img.valid ⟨x + 1, y⟩ = true := by
        simp only [QImage.valid, Bool.and_eq_true, decide_eq_true_eq]
        omega
      have hread : (ScanEvent.read ⟨x + 1, y⟩).Safe img := hvt
      rw [if_pos h1, QPoint.step_right] at he
      by_cases h2 : occupied img ⟨x + 1, y⟩ = true
      · have htrace : (ScanEvent.trace ⟨x, y⟩ ⟨x + 1, y⟩).Safe img :=
          ⟨hvs, hfree h1, (QPoint.step_right x y).symm, hvt, h2⟩
        rw [if_neg (by simp [h2])] at he
        by_cases h3 : (traceBoundary img ⟨x, y⟩ ⟨x + 1, y⟩).1 = true
        · rw [if_neg (by simp [h3])] at he
          simp only [List.mem_cons, List.mem_singleton, List.not_mem_nil, or_false] at he
          rcases he with h | h
          · rw [h]; exact hread
          · rw [h]; exact htrace
        · rw [if_pos (by simpa using h3)] at he
          have hskip := skipRunLog_safe img y hy (n + 1) (x + 1) (by omega)
          obtain ⟨x', e1, e2, _, e4⟩ := skipRun_spec img y (n + 1) (x + 1) (by omega)
          have hfst : (skipRunLog img y (n + 1) (x + 1)).1 = some x' := by
            rw [skipRunLog_fst, e1]
          rw [hfst] at he
          dsimp only at he
          rw [QPoint.back_and_forth] at he
          rcases List.mem_cons.mp he with h | h
          · rw [h]; exact hread
          · rcases List.mem_cons.mp h with h | h
            · rw [h]; exact htrace
            · rcases List.mem_append.mp h with h | h
              · exact hskip e h
              · exact ih x' (by omega) (by omega) e4 e h
      · rw [if_pos (by simpa using h2)] at he
        rcases List.mem_cons.mp he with h | h
        · rw [h]; exact hread
        · exact ih (x + 1) (by omega) (by omega) (fun _ => by simpa using h2) e h
    · rw [if_neg h1] at he
      simp at he

/-- C13. For every image and every accepted click (inside the image rectangle
and free): the instrumented scan computes what the scan computes, and every
event it records keeps to the preconditions.  At every call of
`traceBoundary`, also after floating objects were skipped, `start_pixel` is a
free pixel of the image and `test_pixel = start_pixel + (1, 0)` is an
obstructed pixel of the image, so the assertions of lines 225-226 hold; and
every pixel read by the scan and by its skip loop is a pixel of the image. -/
theorem scan_calls_within_preconditions (img : QImage) (clicked : QPoint)
    (hin : rectContains img clicked = true) (hfree : occupied img clicked = false) :
    (scanLoopLog img (img.width + 1) clicked).1 = clickPress img clicked ∧
    ∀ e ∈ (scanLoopLog img (img.width + 1) clicked).2, e.Safe img := by
  obtain ⟨cx, cy⟩ := clicked
  have hbox : 0 < cx ∧ cx < (img.width : Int) - 1 ∧ 0 < cy ∧ cy < (img.height : Int) - 1 := by
    simpa [rectContains, and_assoc] using hin
  constructor
  · rw [scanLoopLog_fst]
    unfold clickPress
    rw [if_neg (by simp [hin]), if_neg (by simp [hfree])]
  · exact scanLoopLog_safe img cy (by omega) (img.width + 1) cx (by omega) (by omega)
      (fun _ => hfree)

theorem scan_calls_within_preconditions_witness :
    rectContains ringImage ⟨1, 3⟩ = true ∧ occupied ringImage ⟨1, 3⟩ = false ∧
    (ScanEvent.trace ⟨3, 3⟩ ⟨4, 3⟩) ∈ (scanLoopLog ringImage (ringImage.width + 1) ⟨1, 3⟩).2 ∧
    ∀ e ∈ (scanLoopLog ringImage (ringImage.width + 1) ⟨1, 3⟩).2, e.Safe ringImage :=
  ⟨by decide, by decide, by decide,
    (scan_calls_within_preconditions ringImage ⟨1, 3⟩ (by decide) (by decide)).2⟩

/-! ### Index safety of the section builder -/

theorem builderStep_dist_irrelevant (env1 env2 : SnapEnv) (boundary : List QPoint) (b : Nat)
    (pix : QPoint) (sections : List PathSection) (hsnap : env1.snap = env2.snap)
    (hdist : ∀ q, prevPixel boundary b = some q → env1.dist pix q = env2.dist pix q) :
    builderStep env1 boundary b pix sections = builderStep env2 boundary b pix sections := by
  unfold builderStep
  rw [hsnap]
  cases env2.snap pix with
  | none => rfl
  | some sample =>
    obtain ⟨obj, clen⟩ := sample
    dsimp only
    cases sections.getLast? with
    | none => rfl
    | some back =>
      dsimp only
      cases hq : prevPixel boundary b with
      | none => rfl
      | some q =>
        dsimp only
        rw [hdist q hq]

theorem builderLoop_dist_irrelevant (env1 env2 : SnapEnv) (boundary : List QPoint)
    (hsnap : env1.snap = env2.snap)
    (hdist : ∀ (b : Nat) (h : b + 1 < boundary.length),
      env1.dist (boundary.get ⟨b + 1, h⟩) (boundary.get ⟨b, Nat.lt_of_succ_lt h⟩) =
        env2.dist (boundary.get ⟨b + 1, h⟩) (boundary.get ⟨b, Nat.lt_of_succ_lt h⟩)) :
    ∀ (rest : List QPoint) (b : Nat) (sections : List PathSection),
      boundary.drop b = rest →
      builderLoop env1 boundary b rest sections = builderLoop env2 boundary b rest sections := by
  intro rest
  induction rest with
  | nil => intro b sections _; rfl
  | cons pix rest ih =>
    intro b sections hdrop
    have hb : b < boundary.length := by
      by_contra hc
      rw [List.drop_eq_nil_of_le (by omega)] at hdrop
      simp at hdrop
    rw [List.drop_eq_getElem_cons hb] at hdrop
    have hpix : boundary[b] = pix := (List.cons.inj hdrop).1
    have hrest : boundary.drop (b + 1) = rest := (List.cons.inj hdrop).2
    have hstep : builderStep env1 boundary b pix sections =
        builderStep env2 boundary b pix sections := by
      apply builderStep_dist_irrelevant env1 env2 boundary b pix sections hsnap
      intro q hq
      unfold prevPixel at hq
      by_cases hb0 : b = 0
      · rw [if_pos hb0] at hq
        simp at hq
      · rw [if_neg hb0] at hq
        obtain ⟨b', rfl⟩ : ∃ b', b = b' + 1 := ⟨b - 1, by omega⟩
        have h := hdist b' hb
        simp only [List.get_eq_getElem] at h
        have hq' : boundary[b'] = q := by
          have : boundary[b' + 1 - 1]? = some boundary[b'] := by
            simp only [Nat.add_sub_cancel]
            exact List.getElem?_eq_getElem (by omega)
          rw [this] at hq
          exact Option.some.inj hq
        rw [← hpix, ← hq']
        exact h
    rw [builderLoop, builderLoop, hstep]
    cases builderStep env2 boundary b pix sections with
    | none => rfl
    | some s1 => exact ih (b + 1) s1 hrest

/-- C19. For every contour and every snapping environment: at an index
`b < boundary.size()` the loop body can index the contour out of range with
`boundary[b - 1]` only when `b = 0` and the section list is not empty, which
does not occur (at `b = 0` the list is empty and the disjunction is decided
before `boundary[b - 1]` is evaluated); so the builder always returns and
never indexes the contour out of range.  The distances it uses are
those between a contour pixel and the contour pixel before it, whether or not
that pixel snapped: two environments that snap alike and agree on the
distances between consecutive contour pixels give the same sections. -/
theorem buildSections_index_safe (env : SnapEnv) (boundary : List QPoint) :
    (∀ (b : Nat) (pix : QPoint) (sections : List PathSection), b < boundary.length →
      builderStep env boundary b pix sections = none → b = 0 ∧ sections ≠ []) ∧
    (∀ pix, builderStep env boundary 0 pix [] ≠ none) ∧
    (∃ sections, buildSections env boundary = some sections) ∧
    (∀ env2 : SnapEnv, env.snap = env2.snap →
      (∀ (b : Nat) (h : b + 1 < boundary.length),
        env.dist (boundary.get ⟨b + 1, h⟩) (boundary.get ⟨b, Nat.lt_of_succ_lt h⟩) =
          env2.dist (boundary.get ⟨b + 1, h⟩) (boundary.get ⟨b, Nat.lt_of_succ_lt h⟩)) →
      buildSections env boundary = buildSections env2 boundary) := by
  refine ⟨?_, ?_, ?_, ?_⟩
  · intro b pix sections hlt h
    unfold builderStep at h
    cases hsnap : env.snap pix with
    | none => rw [hsnap] at h; simp at h
    | some sample =>
      obtain ⟨obj, clen⟩ := sample
      rw [hsnap] at h
      dsimp only at h
      cases hl : sections.getLast? with
      | none => rw [hl] at h; simp at h
      | some back =>
        rw [hl] at h
        dsimp only at h
        have hne : sections ≠ [] := by
          intro he
          rw [he] at hl
          simp at hl
        refine ⟨?_, hne⟩
        by_contra hb
        have hq : prevPixel boundary b = some boundary[b - 1] := by
          unfold prevPixel
          rw [if_neg hb]
          exact List.getElem?_eq_getElem (by omega)
        rw [hq] at h
        dsimp only at h
        split_ifs at h
  · intro pix
    unfold builderStep
    cases env.snap pix with
    | none => simp
    | some sample => simp
  · obtain ⟨sections, _, h, _⟩ := buildSections_runs env boundary
    exact ⟨sections, h⟩
  · intro env2 hsnap hdist
    unfold buildSections
    exact builderLoop_dist_irrelevant env env2 boundary hsnap hdist boundary 0 [] rfl

theorem buildSections_index_safe_witness :
    gapEnv.snap ⟨1, 0⟩ = none ∧
    buildSections gapEnv (rowPixels 3) = some [⟨0, 0, 0⟩, ⟨0, 8, 8⟩] ∧
    ∃ sections, buildSections gapEnv (rowPixels 3) = some sections :=
  ⟨by decide, by decide!, (buildSections_index_safe gapEnv (rowPixels 3)).2.2.1⟩

/-! ### The range check of the reconstruction loop -/

theorem widen_fromSamples (P : Nat → ℚ → Prop) (sec : PathSection) (h : FromSamples P sec) :
    FromSamples P (widen sec) := by
  unfold widen
  split_ifs with he
  · refine ⟨h.1, Or.inr ⟨sec.end_clen, ?_, rfl⟩⟩
    show P sec.object sec.end_clen
    rw [he]
    exact h.1
  · exact h

theorem mergedSection_fromSamples (P : Nat → ℚ → Prop) (pl : ℚ) (cur prev : PathSection)
    (hm : mergeCondition pl cur prev = true) (hc : FromSamples P cur)
    (hp : FromSamples P prev) : FromSamples P (mergedSection cur prev) := by
  have hobj : cur.object = prev.object := by
    simp only [mergeCondition, Bool.and_eq_true, decide_eq_true_eq] at hm
    exact hm.1.1
  rw [mergedSection_eq pl cur prev hm]
  refine ⟨?_, hc.2⟩
  show P cur.object prev.start_clen
  rw [hobj]
  exact hp.1

theorem cleanZip_fromSamples (P : Nat → ℚ → Prop) (pl : ℚ) :
    ∀ (rest done : List PathSection) (cur : PathSection),
      (∀ sec ∈ done, FromSamples P sec) → FromSamples P cur →
      (∀ sec ∈ rest, FromSamples P sec) →
      ∀ sec ∈ cleanZip pl done cur rest, FromSamples P sec := by
  intro rest
  induction rest with
  | nil =>
    intro done cur hd hc _ sec hsec
    cases done with
    | nil =>
      simp only [cleanZip, List.mem_singleton] at hsec
      rw [hsec]
      exact widen_fromSamples P cur hc
    | cons prev ds =>
      simp only [cleanZip] at hsec
      split_ifs at hsec with hm
      · simp only [List.mem_reverse, List.mem_cons] at hsec
        rcases hsec with h | h
        · rw [h]
          exact mergedSection_fromSamples P pl cur prev hm hc (hd prev (by simp))
        · exact hd sec (List.mem_cons_of_mem _ h)
      · simp only [List.mem_reverse, List.mem_cons] at hsec
        rcases hsec with h | h | h
        · rw [h]
          exact widen_fromSamples P cur hc
        · rw [h]
          exact hd prev (by simp)
        · exact hd sec (List.mem_cons_of_mem _ h)
  | cons next rest ih =>
    intro done cur hd hc hr sec hsec
    have hnext : FromSamples P next := hr next (by simp)
    have hrest : ∀ sec ∈ rest, FromSamples P sec :=
      fun sec h => hr sec (List.mem_cons_of_mem _ h)
    cases done with
    | nil =>
      simp only [cleanZip] at hsec
      refine ih [widen cur] next ?_ hnext hrest sec hsec
      intro s hs
      simp only [List.mem_singleton] at hs
      rw [hs]
      exact widen_fromSamples P cur hc
    | cons prev ds =>
      simp only [cleanZip] at hsec
      split_ifs at hsec with hm
      · refine ih (mergedSection cur prev :: ds) (widen next) ?_
          (widen_fromSamples P next hnext) hrest sec hsec
        intro s hs
        rcases List.mem_cons.mp hs with h | h
        · rw [h]
          exact mergedSection_fromSamples P pl cur prev hm hc (hd prev (by simp))
        · exact hd s (List.mem_cons_of_mem _ h)
      · refine ih (widen cur :: prev :: ds) next ?_ hnext hrest sec hsec
        intro s hs
        rcases List.mem_cons.mp hs with h | h
        · rw [h]
          exact widen_fromSamples P cur hc
        · exact hd s h

theorem built_sections_fromSamples (P : Nat → ℚ → Prop) :
    ∀ (sections : List PathSection) (runs : List (List (Nat × ℚ))),
      List.Forall₂ RunOf sections runs → (∀ s ∈ runs.flatten, P s.1 s.2) →
      ∀ sec ∈ sections, P sec.object sec.start_clen ∧ P sec.object sec.end_clen := by
  intro sections runs h
  induction h with
  | nil => intro _ sec hsec; simp at hsec
  | @cons sec0 run secs rs hr _ ih =>
    intro hs sec hsec
    rcases List.mem_cons.mp hsec with h | h
    · rw [h]
      obtain ⟨h1, h2, h3, _⟩ := hr
      have hmem : ∀ c, c ∈ run.map Prod.snd → P sec0.object c := by
        intro c hc
        obtain ⟨s, hsr, hsc⟩ := List.mem_map.mp hc
        have := hs s (by simp [hsr])
        rw [h1 s hsr, hsc] at this
        exact this
      exact ⟨hmem _ (List.mem_of_mem_head? h2), hmem _ (List.mem_of_mem_getLast? h3)⟩
    · exact ih (fun s hsm => hs s (by
        simp only [List.flatten_cons, List.mem_append]
        exact Or.inr hsm)) sec h

/-- What holds of every kept sample holds, in the sense of `FromSamples`, of
every section that leaves the clean-up loop. -/
theorem cleaned_fromSamples (P : Nat → ℚ → Prop) (env : SnapEnv) (boundary : List QPoint)
    (sections : List PathSection) (hb : buildSections env boundary = some sections)
    (hP : ∀ s ∈ keptSamples env boundary, P s.1 s.2) :
    ∀ sec ∈ cleanSections env.pixel_length sections, FromSamples P sec := by
  obtain ⟨sections1, runs, h1, h2, h3⟩ := buildSections_runs env boundary
  rw [hb] at h1
  have hsec : sections = sections1 := Option.some.inj h1
  subst hsec
  have hbuilt := built_sections_fromSamples P sections runs h3 (by rw [h2]; exact hP)
  have hin : ∀ sec ∈ sections, FromSamples P sec := by
    intro sec hsec
    have hsb := hbuilt sec hsec
    exact ⟨hsb.1, Or.inl hsb.2⟩
  cases sections with
  | nil =>
    rw [cleanSections_nil]
    intro sec hsec
    simp at hsec
  | cons cur rest =>
    rw [cleanSections_cons]
    exact cleanZip_fromSamples P env.pixel_length rest [] cur (by simp)
      (hin cur (by simp)) (fun sec h => hin sec (List.mem_cons_of_mem _ h))

/-- C18 (amended). For every stream of snap samples, every section that
reaches the reconstruction loop after building and cleaning has as
`start_clen` the arc length of a sample of its object, and as `end_clen`
either such an arc length or the `float` sum `c + epsilon` of such an arc
length `c` (line 363).  When the arc lengths lie in `[0, L]`, `L` the length of
part 0 of their object, every such section has `start_clen <= L` and
`end_clen <= (L + epsilon) * (1 + 2^-24)`.  When every arc length `c` has
`c <= L` and `float` sum `c + epsilon <= L`, the test of lines 371-372 skips no
section; this is the case when `0 <= c` and
`(c + epsilon) * (1 + 2^-24) <= L` for every arc length `c`. -/
theorem cleaned_sections_within_length (env : SnapEnv) (ops : PathOps)
    (boundary : List QPoint) (sections : List PathSection)
    (hb : buildSections env boundary = some sections) :
    (∀ sec ∈ cleanSections env.pixel_length sections,
      FromSamples (fun o c => (o, c) ∈ keptSamples env boundary) sec) ∧
    ((∀ s ∈ keptSamples env boundary, 0 ≤ s.2 ∧ s.2 ≤ ops.partLength s.1) →
      ∀ sec ∈ cleanSections env.pixel_length sections,
        sec.start_clen ≤ ops.partLength sec.object ∧
          sec.end_clen ≤ (ops.partLength sec.object + epsilon) * (1 + 1 / 16777216)) ∧
    ((∀ s ∈ keptSamples env boundary,
        s.2 ≤ ops.partLength s.1 ∧ roundFloat (s.2 + epsilon) ≤ ops.partLength s.1) →
      ∀ sec ∈ cleanSections env.pixel_length sections,
        ¬ (sec.start_clen > ops.partLength sec.object ∨
          sec.end_clen > ops.partLength sec.object)) ∧
    ((∀ s ∈ keptSamples env boundary,
        0 ≤ s.2 ∧ (s.2 + epsilon) * (1 + 1 / 16777216) ≤ ops.partLength s.1) →
      ∀ sec ∈ cleanSections env.pixel_length sections,
        ¬ (sec.start_clen > ops.partLength sec.object ∨
          sec.end_clen > ops.partLength sec.object)) := by
  have hep := epsilon_pos
  have hsmall : ∀ c : ℚ, 0 ≤ c → 1 / ((2 ^ 125 : Nat) : ℚ) ≤ c + epsilon := by
    intro c hc
    refine le_trans ?_ (le_add_of_nonneg_left hc)
    unfold epsilon
    norm_num
  have hskip : (∀ s ∈ keptSamples env boundary,
        s.2 ≤ ops.partLength s.1 ∧ roundFloat (s.2 + epsilon) ≤ ops.partLength s.1) →
      ∀ sec ∈ cleanSections env.pixel_length sections,
        ¬ (sec.start_clen > ops.partLength sec.object ∨
          sec.end_clen > ops.partLength sec.object) := by
    intro hs sec hsec
    obtain ⟨w1, w2⟩ := cleaned_fromSamples
      (fun o c => c ≤ ops.partLength o ∧ roundFloat (c + epsilon) ≤ ops.partLength o)
      env boundary sections hb hs sec hsec
    rw [not_or, not_lt, not_lt]
    refine ⟨w1.1, ?_⟩
    rcases w2 with h | ⟨c, hc, he⟩
    · exact h.1
    · rw [he]
      exact hc.2
  refine ⟨?_, ?_, hskip, ?_⟩
  · exact cleaned_fromSamples (fun o c => (o, c) ∈ keptSamples env boundary) env boundary
      sections hb (fun s hs => hs)
  · intro hs sec hsec
    obtain ⟨w1, w2⟩ := cleaned_fromSamples (fun o c => 0 ≤ c ∧ c ≤ ops.partLength o)
      env boundary sections hb hs sec hsec
    refine ⟨w1.2, ?_⟩
    have hL : 0 ≤ ops.partLength sec.object := le_trans w1.1 w1.2
    rcases w2 with h | ⟨c, hc, he⟩
    · have h2 := h.2
      nlinarith
    · rw [he]
      have hr := (roundFloat_le (c + epsilon) (hsmall c hc.1)).1
      have h2 := hc.2
      have h1 := hc.1
      nlinarith
  · intro hs
    apply hskip
    intro s hsm
    obtain ⟨h0, hle⟩ := hs s hsm
    have hr := (roundFloat_le (s.2 + epsilon) (hsmall s.2 h0)).1
    refine ⟨?_, le_trans hr hle⟩
    nlinarith

theorem cleaned_sections_within_length_witness :
    buildSections (sampledEnv [(0, 50)]) (rowPixels 1) = some [⟨0, 50, 50⟩] ∧
    cleanSections 1 [⟨0, 50, 50⟩] = [⟨0, 50, 6553613 / 131072⟩] ∧
    (∀ s ∈ keptSamples (sampledEnv [(0, 50)]) (rowPixels 1),
      0 ≤ s.2 ∧ (s.2 + epsilon) * (1 + 1 / 16777216) ≤ lineOps.partLength s.1) ∧
    ∀ sec ∈ cleanSections (sampledEnv [(0, 50)]).pixel_length [⟨0, 50, 50⟩],
      ¬ (sec.start_clen > lineOps.partLength sec.object ∨
        sec.end_clen > lineOps.partLength sec.object) :=
  ⟨by decide!, by rw [cleanSections_cons]; decide!, by decide!,
    (cleaned_sections_within_length (sampledEnv [(0, 50)]) lineOps (rowPixels 1) [⟨0, 50, 50⟩]
      (by decide!)).2.2.2 (by decide!)⟩

/-- C18 (counterexample). A single contour pixel snaps to object 0 at arc
length 100, the length of part 0 of the object.  The builder makes the section
`{0, 100, 100}` of it, line 363 stores the `float` sum `100 + epsilon`, which
is `100 + 13 * 2^-17`, the test of lines 371-372 skips the section, the path
stays without coordinates and `fillBoundary` returns false. -/
theorem section_at_path_end_skipped :
    (∀ s ∈ keptSamples (sampledEnv [(0, 100)]) (rowPixels 1),
      0 ≤ s.2 ∧ s.2 ≤ lineOps.partLength s.1) ∧
    buildSections (sampledEnv [(0, 100)]) (rowPixels 1) = some [⟨0, 100, 100⟩] ∧
    cleanSections 1 [⟨0, 100, 100⟩] = [⟨0, 100, 13107213 / 131072⟩] ∧
    lineOps.partLength 0 < 13107213 / 131072 ∧
    reconstruct lineOps [⟨0, 100, 13107213 / 131072⟩] = [] ∧
    fillBoundary (sampledEnv [(0, 100)]) lineOps 7 (rowPixels 1) emptyMap =
      some (false, emptyMap) := by
  refine ⟨by decide!, by decide!, ?_, by decide!, by decide!, by decide!⟩
  rw [cleanSections_cons]
  decide!

end FillTool
